import Mathlib

/-!
# Verification of the IC2-for-mope texture utilities

Shallow embedding of the three Python source files of the repository:

* `src/tools/ic2_texture_sync.py` — path normalizer (`camel_to_snake`,
  `normalize_name`, `resolve_destination`);
* `src/extract_ic2_textures.py` — mapping resolver (`copy_with_placeholder`),
  machine-variant sweep (`copy_machine_variants`), bulk synchronizer
  (`bulk_copy_pngs`) and the driver (`extract_textures`);
* `src/generate_textures.py` — keyword-to-color selection (`get_color`).

Strings are modelled as `List Char` / `String`; the filesystem is modelled as
an association list from paths (lists of components) to files (byte content
plus a metadata timestamp).  Lowercasing (`str.lower`) is modelled on the
ASCII range, which is the only range the programs' keyword tests rely on.
-/

/-! ## Character helpers (ASCII, as used by the Python `re` / `str` calls) -/

/-- `[A-Z]` (ASCII uppercase letter). -/
def isUpperChar (c : Char) : Bool := 65 ≤ c.toNat && c.toNat ≤ 90

/-- `[a-z]` (ASCII lowercase letter). -/
def isLowerChar (c : Char) : Bool := 97 ≤ c.toNat && c.toNat ≤ 122

/-- `[0-9]` (ASCII digit). -/
def isDigitChar (c : Char) : Bool := 48 ≤ c.toNat && c.toNat ≤ 57

/-- `[A-Za-z0-9]` — the character class of `re.sub(r"[^A-Za-z0-9]+", "_", …)`. -/
def isAlnumChar (c : Char) : Bool := isUpperChar c || isLowerChar c || isDigitChar c

/-- `[a-z0-9]` — the first class of the camel-boundary pattern
`([a-z0-9])([A-Z])`. -/
def isLowerDigitChar (c : Char) : Bool := isLowerChar c || isDigitChar c

/-- ASCII lowercasing of one character (`str.lower` restricted to ASCII). -/
def lowerChar (c : Char) : Char :=
  if isUpperChar c then Char.ofNat (c.toNat + 32) else c

/-- `str.lower` on a character list (ASCII range). -/
def lowerList (l : List Char) : List Char := l.map lowerChar

/-! ## `re.sub(r"[^A-Za-z0-9]+", "_", stem)` -/

/-- Worker for `squashNonAlnum`.  The flag records whether we are currently
inside a run of non-alphanumeric characters (which has already emitted its
single underscore). -/
def squashAux : Bool → List Char → List Char
  | _, [] => []
  | inRun, c :: rest =>
    if isAlnumChar c then c :: squashAux false rest
    else if inRun then squashAux true rest
    else '_' :: squashAux true rest

/-- `re.sub(r"[^A-Za-z0-9]+", "_", s)`: every maximal run of
non-alphanumeric characters becomes a single underscore. -/
def squashNonAlnum (l : List Char) : List Char := squashAux false l

/-! ## `re.sub(r"^(item|block)_", "", cleaned, flags=re.IGNORECASE)` -/

/-- Case-insensitive (ASCII) match of a lowercase pattern against the start of
a list. -/
def ciStartsWith : List Char → List Char → Bool
  | [], _ => true
  | _ :: _, [] => false
  | p :: ps, c :: cs => lowerChar c = p && ciStartsWith ps cs

/-- `re.sub(r"^(item|block)_", "", l, flags=re.IGNORECASE)`: strip one leading
`item_` or `block_` token, case-insensitively.  The anchored pattern matches
at most once, so a single conditional drop is the exact semantics. -/
def stripItemBlock (l : List Char) : List Char :=
  if ciStartsWith [ 'i', 't', 'e', 'm', '_' ] l then l.drop 5
  else if ciStartsWith [ 'b', 'l', 'o', 'c', 'k', '_' ] l then l.drop 6
  else l

/-! ## `camel_to_snake` (src/tools/ic2_texture_sync.py lines 15–19) -/

/-- `re.sub(r"([a-z0-9])([A-Z])", r"\1_\2", name)`: insert an underscore at
each camel-case boundary; after a replacement the scan resumes past the
consumed pair (Python's non-overlapping match semantics). -/
def camelIns : List Char → List Char
  | [] => []
  | [c] => [c]
  | c1 :: c2 :: rest =>
    if isLowerDigitChar c1 && isUpperChar c2 then c1 :: '_' :: c2 :: camelIns rest
    else c1 :: camelIns (c2 :: rest)

/-- Python `str.replace("__", "_")`: one left-to-right pass replacing
non-overlapping occurrences of a double underscore by a single one. -/
def replaceDouble : List Char → List Char
  | [] => []
  | [c] => [c]
  | c :: d :: rest =>
    if c = '_' && d = '_' then '_' :: replaceDouble rest
    else c :: replaceDouble (d :: rest)

/-- `camel_to_snake(name)`: camel-boundary split, collapse `__`, lowercase. -/
def camel_to_snake (l : List Char) : List Char :=
  lowerList (replaceDouble (camelIns l))

/-! ## `normalize_name` (src/tools/ic2_texture_sync.py lines 21–26) -/

/-- Python `str.strip("_")`: remove all leading and trailing underscores. -/
def stripUnderscores (l : List Char) : List Char :=
  ((l.dropWhile (fun c => c = '_')).reverse.dropWhile (fun c => c = '_')).reverse

/-- The namespace tag `ic2_` as characters. -/
def ic2Tag : List Char := [ 'i', 'c', '2', '_' ]

/-- Case-sensitive `str.startswith` on character lists. -/
def startsWithChars : List Char → List Char → Bool
  | [], _ => true
  | _ :: _, [] => false
  | p :: ps, c :: cs => p = c && startsWithChars ps cs

/-- `normalize_name(stem)` returning `(normalized, cleaned)`. -/
def normalize_name (stem : String) : String × String :=
  let cleaned := stripUnderscores (camel_to_snake (stripItemBlock (squashNonAlnum stem.data)))
  let normalized := if startsWithChars ic2Tag cleaned then cleaned else ic2Tag ++ cleaned
  (String.mk normalized, String.mk cleaned)

/-! ## `resolve_destination` (src/tools/ic2_texture_sync.py lines 33–36) -/

/-- A filesystem path, as its list of components (pathlib splits on `/`). -/
abbrev FPath := List String

/-- Case-sensitive substring test (`needle in hay` on Python strings). -/
def containsSub (needle : List Char) : List Char → Bool
  | [] => startsWithChars needle []
  | c :: rest => startsWithChars needle (c :: rest) || containsSub needle rest

/-- `DEST_BLOCKS = ROOT / "resource_pack" / "textures" / "blocks"`, modelled
relative to the repository root `ROOT`. -/
def DEST_BLOCKS : FPath := ["resource_pack", "textures", "blocks"]

/-- `DEST_ITEMS = ROOT / "resource_pack" / "textures" / "items"`, modelled
relative to the repository root `ROOT`. -/
def DEST_ITEMS : FPath := ["resource_pack", "textures", "items"]

/-- `resolve_destination(stem, source_path)`; `source_parts` is
`source_path.parts`. -/
def resolve_destination (stem : String) (source_parts : List String) : FPath :=
  let target_root :=
    if containsSub [ 'b', 'l', 'o', 'c', 'k' ] (lowerList stem.data)
        || source_parts.contains "blocks" then DEST_BLOCKS
    else DEST_ITEMS
  target_root ++ [(normalize_name stem).1 ++ ".png"]

/-! ## Filesystem model for `src/extract_ic2_textures.py`

The filesystem is an association list from paths to files.  A file carries its
byte content together with a metadata timestamp (`shutil.copy2` copies both;
a freshly synthesized file is modelled with timestamp `0`).  Directories are
implicit: `mkdir(parents=True, exist_ok=True)` is a no-op in this model, and a
directory "exists" when a file lies under it. -/

/-- File content bytes. -/
abbrev Bytes := List Nat

/-- A file on disk: its bytes and its metadata timestamp. -/
structure FileE where
  content : Bytes
  mtime : Nat
deriving DecidableEq, Repr

/-- The filesystem: an association list from paths to files. -/
abbrev FS := List (FPath × FileE)

/-- Look a path up in the filesystem (first matching entry). -/
def lookupFS : FS → FPath → Option FileE
  | [], _ => none
  | (q, g) :: rest, p => if q = p then some g else lookupFS rest p

/-- `Path.exists()` for a file path. -/
def existsFS (fs : FS) (p : FPath) : Bool := (lookupFS fs p).isSome

/-- Write a file: replace the entry in place when the path is present,
otherwise append a new entry. -/
def writeFS : FS → FPath → FileE → FS
  | [], p, f => [(p, f)]
  | (q, g) :: rest, p, f => if q = p then (p, f) :: rest else (q, g) :: writeFS rest p f

/-- Split a relative path string on `/` into components (what `pathlib` does
with the mapping-table strings). -/
def splitSlashAux : List Char → List Char → List String
  | [], acc => [String.mk acc.reverse]
  | c :: rest, acc =>
    if c = '/' then String.mk acc.reverse :: splitSlashAux rest []
    else splitSlashAux rest (c :: acc)

/-- Split a `/`-separated relative path into its components. -/
def splitSlash (s : String) : FPath := splitSlashAux s.data []

/-! ## Data model of `src/extract_ic2_textures.py` -/

/-- `PLACEHOLDER_PNG_BYTES` (lines 30–35): the fixed 1x1 purple PNG. -/
def PLACEHOLDER_PNG_BYTES : Bytes :=
  [137, 80, 78, 71, 13, 10, 26, 10, 0, 0, 0, 13, 73, 72, 68, 82, 0, 0, 0, 1,
   0, 0, 0, 1, 8, 6, 0, 0, 0, 31, 21, 196, 137, 0, 0, 0, 12, 73, 68, 65,
   84, 120, 156, 99, 100, 100, 98, 102, 0, 0, 0, 130, 0, 129, 184, 145, 187, 5, 0, 0,
   0, 0, 73, 69, 78, 68, 174, 66, 96, 130]

/-- `Mapping` (lines 38–44): one source → destination pair with its label. -/
structure Mapping where
  source : FPath
  destination : FPath
  label : String
deriving DecidableEq, Repr

/-- `Counters` (lines 47–55). -/
structure Counters where
  mapped : Nat
  placeholders : Nat
  bulk : Nat
  skipped_existing : Nat
  missing_no_placeholder : Nat
deriving DecidableEq, Repr

/-- `Counters()`: all counters start at zero. -/
def Counters.init : Counters := ⟨0, 0, 0, 0, 0⟩

/-- `RAW_TEXTURE_MAPPING` (lines 69–106), verbatim. -/
def RAW_TEXTURE_MAPPING : List (String × String) :=
  [("blocks/generator/electric/generator_front.png", "blocks/generator/generator.png"),
   ("blocks/generator/electric/geo_generator_front.png", "blocks/generator/geo_generator.png"),
   ("blocks/generator/electric/solar_generator_top.png", "blocks/generator/solar.png"),
   ("blocks/generator/electric/wind_generator_front.png", "blocks/generator/wind.png"),
   ("blocks/generator/electric/water_generator_front.png", "blocks/generator/water.png"),
   ("blocks/machine/processing/basic/macerator_front_active.png", "blocks/machine/macerator_front.png"),
   ("blocks/machine/processing/basic/compressor_front_active.png", "blocks/machine/compressor_front.png"),
   ("blocks/machine/processing/basic/extractor_front_active.png", "blocks/machine/extractor_front.png"),
   ("blocks/machine/processing/basic/recycler_front.png", "blocks/machine/recycler_front.png"),
   ("blocks/machine.png", "blocks/general/machine/sides.png"),
   ("blocks/machine_top.png", "blocks/general/machine/top.png"),
   ("blocks/machine_bottom.png", "blocks/general/machine/bottom.png"),
   ("blocks/resource/tin_ore.png", "blocks/ore/tin_ore.png"),
   ("blocks/resource/lead_ore.png", "blocks/ore/lead_ore.png"),
   ("blocks/resource/uranium_ore.png", "blocks/ore/uranium_ore.png"),
   ("blocks/resource/copper_ore.png", "blocks/ore/copper_ore.png"),
   ("blocks/resource/tin_ore.png", "blocks/ore/deepslate_tin_ore.png"),
   ("blocks/resource/lead_ore.png", "blocks/ore/deepslate_lead_ore.png"),
   ("blocks/resource/uranium_ore.png", "blocks/ore/deepslate_uranium_ore.png"),
   ("blocks/resource/copper_ore.png", "blocks/ore/deepslate_copper_ore.png"),
   ("blocks/resource/tin_block.png", "blocks/ore/ingot_block/tin_block.png"),
   ("blocks/resource/lead_block.png", "blocks/ore/ingot_block/lead_block.png"),
   ("blocks/resource/bronze_block.png", "blocks/ore/ingot_block/bronze_block.png"),
   ("blocks/resource/steel_block.png", "blocks/ore/ingot_block/steel_block.png"),
   ("blocks/resource/uranium_block.png", "blocks/ore/ingot_block/uranium_bottomtop.png")]

/-- `RAW_ITEM_MAPPING` (lines 108–121), verbatim. -/
def RAW_ITEM_MAPPING : List (String × String) :=
  [("tool/electric/drill.png", "items/tool/general/drill.png"),
   ("tool/electric/diamond_drill.png", "items/tool/general/diamond_drill.png"),
   ("tool/electric/chainsaw.png", "items/tool/general/chainsaw.png"),
   ("tool/electric/electric_wrench.png", "items/tool/general/electric_wrench.png"),
   ("armor/nano_helmet.png", "items/armor/nanosuit_helmet.png"),
   ("armor/nano_chestplate.png", "items/armor/nanosuit_chestplate.png"),
   ("armor/nano_leggings.png", "items/armor/nanosuit_leggings.png"),
   ("armor/nano_boots.png", "items/armor/nanosuit_boots.png"),
   ("armor/quantum_helmet.png", "items/armor/quantumsuit_helmet.png"),
   ("armor/quantum_chestplate.png", "items/armor/quantumsuit_chestplate.png"),
   ("armor/quantum_leggings.png", "items/armor/quantumsuit_leggings.png"),
   ("armor/quantum_boots.png", "items/armor/quantumsuit_boots.png")]

/-- `build_mappings(java_root, bedrock_root)` (lines 134–145). -/
def build_mappings (java_root bedrock_root : FPath) : List Mapping × List Mapping :=
  (RAW_TEXTURE_MAPPING.map (fun sd =>
      ⟨java_root ++ splitSlash sd.1, bedrock_root ++ splitSlash sd.2, sd.1⟩),
   RAW_ITEM_MAPPING.map (fun sd =>
      ⟨java_root ++ ["items"] ++ splitSlash sd.1, bedrock_root ++ splitSlash sd.2,
       "items/" ++ sd.1⟩))

/-- `write_placeholder(target, label)` (lines 148–153): create the fixed
placeholder at `target` (fresh file, timestamp modelled as `0`). -/
def write_placeholder (fs : FS) (target : FPath) : FS :=
  writeFS fs target ⟨PLACEHOLDER_PNG_BYTES, 0⟩

/-- `copy_with_placeholder(mapping, counters, allow_placeholder, bedrock_root)`
(lines 156–184), returning the updated filesystem and counters. -/
def copy_with_placeholder (m : Mapping) (allow_placeholder : Bool)
    (fs : FS) (cs : Counters) : FS × Counters :=
  if existsFS fs m.destination then
    (fs, { cs with skipped_existing := cs.skipped_existing + 1 })
  else
    match lookupFS fs m.source with
    | some f => (writeFS fs m.destination f, { cs with mapped := cs.mapped + 1 })
    | none =>
      if allow_placeholder then
        (write_placeholder fs m.destination,
         { cs with placeholders := cs.placeholders + 1 })
      else
        (fs, { cs with missing_no_placeholder := cs.missing_no_placeholder + 1 })

/-- The `for mapping in …: copy_with_placeholder(…)` loops of
`extract_textures` (lines 238–239 and 243–244). -/
def runMappings : List Mapping → Bool → FS → Counters → FS × Counters
  | [], _, fs, cs => (fs, cs)
  | m :: rest, ap, fs, cs =>
    let r := copy_with_placeholder m ap fs cs
    runMappings rest ap r.1 r.2

/-! ## `copy_machine_variants` (lines 187–203) -/

/-- Case-sensitive substring test on strings (`key in png_file.name`). -/
def strContains (needle hay : String) : Bool := containsSub needle.data hay.data

/-- `.png` suffix test on a file name (`glob("*.png")` / `rglob("*.png")`). -/
def isPngName (n : String) : Bool :=
  startsWithChars [ 'g', 'n', 'p', '.' ] n.data.reverse

/-- The keyword tuple `wanted = ("macerator", "compressor", "extractor",
"recycler")` (line 194). -/
def machineKeywords : List String := ["macerator", "compressor", "extractor", "recycler"]

/-- The directory scanned by the sweep:
`java_root / "blocks" / "machine" / "processing" / "basic"` (line 190). -/
def machineDir (java_root : FPath) : FPath :=
  java_root ++ ["blocks", "machine", "processing", "basic"]

/-- The files lying directly in a directory: name and content of every entry
whose path is `dir ++ [name]`. -/
def filesInDir (fs : FS) (dir : FPath) : List (String × FileE) :=
  fs.filterMap (fun pf =>
    match pf.1.getLast? with
    | some n => if pf.1.dropLast = dir then some (n, pf.2) else none
    | none => none)

/-- The files the sweep copies: `machine_dir.glob("*.png")` filtered by the
keyword test (the loop body `continue`s on non-matching names). -/
def machineMatchList (fs : FS) (java_root : FPath) : List (String × FileE) :=
  ((filesInDir fs (machineDir java_root)).filter (fun nf => isPngName nf.1)).filter
    (fun nf => machineKeywords.any (fun key => strContains key nf.1))

/-- The sweep's copy loop: each matching file is copied unconditionally
(`shutil.copy2`, no destination-exists check) to
`bedrock_root / "blocks" / "machine" / name`, incrementing `counters.mapped`. -/
def copyMachineList : List (String × FileE) → FPath → FS → Counters → FS × Counters
  | [], _, fs, cs => (fs, cs)
  | (n, f) :: rest, bedrock_root, fs, cs =>
    copyMachineList rest bedrock_root
      (writeFS fs (bedrock_root ++ ["blocks", "machine", n]) f)
      { cs with mapped := cs.mapped + 1 }

/-- `copy_machine_variants(java_root, bedrock_root, counters)` (lines
187–203).  The glob is modelled as a snapshot of the machine directory, which
the sweep itself never writes into. -/
def copy_machine_variants (java_root bedrock_root : FPath)
    (fs : FS) (cs : Counters) : FS × Counters :=
  copyMachineList (machineMatchList fs java_root) bedrock_root fs cs

/-! ## `bulk_copy_pngs` (lines 206–221) -/

/-- `source_root.rglob("*.png")`: every `.png` file strictly under
`source_root`, as found in the filesystem list. -/
def pngsUnder (fs : FS) (source_root : FPath) : List (FPath × FileE) :=
  fs.filter (fun pf =>
    source_root.isPrefixOf pf.1 && decide (source_root.length < pf.1.length)
      && (match pf.1.getLast? with
          | some n => isPngName n
          | none => false))

/-- The bulk loop body, over the snapshot of discovered files: skip when the
destination exists, else copy and count. -/
def bulkList : List (FPath × FileE) → FPath → FPath → FS → Counters → FS × Counters
  | [], _, _, fs, cs => (fs, cs)
  | (p, f) :: rest, source_root, target_root, fs, cs =>
    let destination := target_root ++ p.drop source_root.length
    if existsFS fs destination then
      bulkList rest source_root target_root fs
        { cs with skipped_existing := cs.skipped_existing + 1 }
    else
      bulkList rest source_root target_root (writeFS fs destination f)
        { cs with bulk := cs.bulk + 1 }

/-- `bulk_copy_pngs(source_root, target_root, counters)` (lines 206–221). -/
def bulk_copy_pngs (source_root target_root : FPath)
    (fs : FS) (cs : Counters) : FS × Counters :=
  bulkList (pngsUnder fs source_root) source_root target_root fs cs

/-! ## `extract_textures` (lines 224–251) -/

/-- `extract_textures(java_root, bedrock_root, allow_placeholders, skip_bulk)`:
mapping pass over the texture table, machine-variant sweep, mapping pass over
the item table, then (unless `skip_bulk`) the two bulk passes. -/
def extract_textures (java_root bedrock_root : FPath)
    (allow_placeholders skip_bulk : Bool) (fs : FS) : FS × Counters :=
  let tm := build_mappings java_root bedrock_root
  let r1 := runMappings tm.1 allow_placeholders fs Counters.init
  let r2 := copy_machine_variants java_root bedrock_root r1.1 r1.2
  let r3 := runMappings tm.2 allow_placeholders r2.1 r2.2
  if skip_bulk then r3
  else
    let r4 := bulk_copy_pngs (java_root ++ ["blocks"]) (bedrock_root ++ ["blocks"]) r3.1 r3.2
    bulk_copy_pngs (java_root ++ ["items"]) (bedrock_root ++ ["items"]) r4.1 r4.2

/-! ## `get_color` (src/generate_textures.py lines 48–81) -/

/-- RGB color. -/
abbrev Color := Nat × Nat × Nat

/-- `MATERIAL_COLORS` (lines 36–46) as the ordered list the `for` loop
iterates over (Python dicts preserve insertion order). -/
def MATERIAL_COLORS : List (String × Color) :=
  [("copper", (184, 115, 51)),
   ("tin", (180, 180, 180)),
   ("lead", (70, 70, 90)),
   ("uranium", (50, 200, 50)),
   ("gold", (255, 215, 0)),
   ("iron", (200, 200, 200)),
   ("bronze", (205, 127, 50)),
   ("coal", (40, 40, 40)),
   ("rubber", (30, 30, 30))]

/-- The material loop of `get_color` (lines 53–55): first material whose
keyword occurs in the (lowercased) name wins. -/
def firstMaterial (nl : List Char) : Option Color :=
  MATERIAL_COLORS.findSome? (fun mc =>
    if strContains mc.1 (String.mk nl) then some mc.2 else none)

/-- The category `if` chain of `get_color` (lines 58–79), with the `COLORS`
values (lines 20–33) inlined; `none` when no category matches. -/
def categoryColor (nl : List Char) : Option Color :=
  let has := fun (s : String) => containsSub s.data nl
  if has "generator" || has "solar" || has "wind" then some (100, 100, 100)
  else if has "macerator" || has "furnace" || has "compressor" || has "extractor"
      || has "recycler" then some (120, 120, 120)
  else if has "cable" then some (180, 120, 60)
  else if has "ore" then some (139, 119, 101)
  else if has "rubber" || has "resin" then some (80, 60, 40)
  else if has "dust" then some (200, 180, 150)
  else if has "ingot" || has "plate" then some (220, 150, 50)
  else if has "circuit" then some (50, 150, 50)
  else if has "nano" then some (50, 50, 80)
  else if has "quantum" then some (100, 200, 255)
  else if has "reactor" || has "uranium_cell" || has "heat" || has "coolant" then
    some (50, 200, 50)
  else none

/-- `get_color(name)` (lines 48–81): lowercase the name, try the material
keywords in order, then the category chain, else the default gray. -/
def get_color (name : String) : Color :=
  let nl := lowerList name.data
  match firstMaterial nl with
  | some c => c
  | none =>
    match categoryColor nl with
    | some c => c
    | none => (128, 128, 128)

/-! ## Auxiliary definitions used by the statements -/

/-- Full collapsing of consecutive duplicate underscores, as the
specification words it ("collapse duplicate underscores").  Used to compare
`normalize_name` against the specification's step list. -/
def collapseUnderscores : List Char → List Char
  | [] => []
  | [c] => [c]
  | c :: d :: rest =>
    if c = '_' && d = '_' then collapseUnderscores (d :: rest)
    else c :: collapseUnderscores (d :: rest)

/-- The cleaned token as described by the specification's step list: squash
non-alphanumeric runs, strip a leading `item_`/`block_` token, split camel
boundaries, lowercase, collapse duplicate underscores, trim underscores. -/
def spec_cleaned (stem : String) : String :=
  String.mk (stripUnderscores (collapseUnderscores (lowerList
    (camelIns (stripItemBlock (squashNonAlnum stem.data))))))

/-- A cleaned-output character: lowercase ASCII letter, digit, or underscore. -/
def goodChar (c : Char) : Bool := isLowerChar c || isDigitChar c || c = '_'

/-- An alphanumeric-or-underscore character (intermediate pipeline stages). -/
def alnumU (c : Char) : Bool := isAlnumChar c || c = '_'

/-- No two adjacent characters of the list are both underscores. -/
def NoDbl (l : List Char) : Prop :=
  l.Chain' (fun a b => ¬(a = '_' ∧ b = '_'))

/-! Concrete sample data for witnesses and counterexamples. -/

/-- A sample file. -/
def sampleFile : FileE := ⟨[1, 2, 3], 5⟩

/-- A second sample file with different content (a sentinel). -/
def sentinelFile : FileE := ⟨[9], 9⟩

/-- A sample mapping entry. -/
def sampleMapping : Mapping := ⟨["s"], ["d"], "lbl"⟩

/-- A filesystem where the sample mapping's source exists. -/
def sampleSrcFS : FS := [(["s"], sampleFile)]

/-- A filesystem where the sample mapping's destination exists. -/
def sampleDstFS : FS := [(["d"], sentinelFile)]

/-- A machine-variant source file path under java root `["j"]`. -/
def sweepSrc : FPath := ["j", "blocks", "machine", "processing", "basic", "macerator_side.png"]

/-- The sweep's derived destination for `sweepSrc` under bedrock root `["b"]`. -/
def sweepDst : FPath := ["b", "blocks", "machine", "macerator_side.png"]

/-- A filesystem holding one machine-variant source. -/
def sweepFS : FS := [(sweepSrc, sampleFile)]

/-- A filesystem where the sweep's destination already exists with sentinel
content different from the source's. -/
def sweepClashFS : FS := [(sweepSrc, sampleFile), (sweepDst, sentinelFile)]

/-- The entries of the filesystem whose path does not lie under `root`.  All
the extractor's writes lie under the bedrock root, so this part — which
includes the whole java source tree when the roots are not nested — is
invariant under a run. -/
def outside (root : FPath) (fs : FS) : FS :=
  fs.filter (fun pf => !(root.isPrefixOf pf.1))

/-- The bulk-independent prefix of `extract_textures`: the texture-mapping
pass, the machine-variant sweep and the item-mapping pass (lines 236–244). -/
def extractCore (java_root bedrock_root : FPath) (ap : Bool) (fs : FS) :
    FS × Counters :=
  let tm := build_mappings java_root bedrock_root
  let r1 := runMappings tm.1 ap fs Counters.init
  let r2 := copy_machine_variants java_root bedrock_root r1.1 r1.2
  runMappings tm.2 ap r2.1 r2.2

/-- A sample filesystem for exercising the two-run theorem: one machine
variant source under the java root `["j"]`. -/
def runTwiceFS : FS := [(sweepSrc, sampleFile)]

/-! # Theorems

First some general lemmas about the filesystem model, then one theorem per
specification claim. -/

theorem lookupFS_writeFS_self (fs : FS) (p : FPath) (f : FileE) :
    lookupFS (writeFS fs p f) p = some f := by
  induction fs with
  | nil => simp [writeFS, lookupFS]
  | cons hd tl ih =>
    obtain ⟨q, g⟩ := hd
    by_cases h : q = p <;> simp [writeFS, lookupFS, h, ih]

theorem lookupFS_writeFS_ne (fs : FS) (p q : FPath) (f : FileE) (h : q ≠ p) :
    lookupFS (writeFS fs p f) q = lookupFS fs q := by
  induction fs with
  | nil => simp [writeFS, lookupFS, Ne.symm h]
  | cons hd tl ih =>
    obtain ⟨r, g⟩ := hd
    by_cases hr : r = p
    · subst hr
      simp [writeFS, lookupFS, h, Ne.symm h]
    · simp [writeFS, lookupFS, hr]
      by_cases hq : r = q <;> simp [hq, ih]

theorem writeFS_noop (fs : FS) (p : FPath) (f : FileE)
    (h : lookupFS fs p = some f) : writeFS fs p f = fs := by
  induction fs with
  | nil => simp [lookupFS] at h
  | cons hd tl ih =>
    obtain ⟨q, g⟩ := hd
    by_cases hq : q = p
    · subst hq
      simp [lookupFS] at h
      simp [writeFS, h]
    · simp [lookupFS, hq] at h
      simp [writeFS, hq, ih h]

theorem existsFS_writeFS (fs : FS) (p q : FPath) (f : FileE) :
    existsFS (writeFS fs p f) q = (q = p || existsFS fs q) := by
  by_cases h : q = p
  · subst h
    simp [existsFS, lookupFS_writeFS_self]
  · simp [existsFS, h, lookupFS_writeFS_ne fs p q f h]

/-- **C1.**  `copy_with_placeholder` applies its rules in order with the first
match winning: an existing destination is skipped with no write; otherwise an
existing source is copied (content and metadata timestamp both transferred,
i.e. the destination afterwards holds exactly the source's file) and counted
as mapped; otherwise the placeholder/missing rules apply. -/
theorem copy_with_placeholder_rule_order (m : Mapping) (ap : Bool)
    (fs : FS) (cs : Counters) :
    (existsFS fs m.destination = true →
      copy_with_placeholder m ap fs cs =
        (fs, { cs with skipped_existing := cs.skipped_existing + 1 })) ∧
    (existsFS fs m.destination = false → ∀ f, lookupFS fs m.source = some f →
      copy_with_placeholder m ap fs cs =
        (writeFS fs m.destination f, { cs with mapped := cs.mapped + 1 }) ∧
      lookupFS (copy_with_placeholder m ap fs cs).1 m.destination = some f) ∧
    (existsFS fs m.destination = false → lookupFS fs m.source = none →
      copy_with_placeholder m ap fs cs =
        (if ap then
          (write_placeholder fs m.destination,
           { cs with placeholders := cs.placeholders + 1 })
         else
          (fs, { cs with missing_no_placeholder := cs.missing_no_placeholder + 1 }))) := by
  refine ⟨fun hd => ?_, fun hd f hf => ?_, fun hd hs => ?_⟩
  · simp [copy_with_placeholder, hd]
  · simp [copy_with_placeholder, hd, hf, lookupFS_writeFS_self]
  · simp [copy_with_placeholder, hd, hs]

/-- Witness for C1: all three rules exercised at concrete inputs. -/
theorem copy_with_placeholder_rule_order_witness :
    (copy_with_placeholder sampleMapping true sampleDstFS Counters.init =
      (sampleDstFS, { Counters.init with skipped_existing := 1 })) ∧
    (copy_with_placeholder sampleMapping true sampleSrcFS Counters.init =
      (writeFS sampleSrcFS ["d"] sampleFile, { Counters.init with mapped := 1 })) ∧
    (copy_with_placeholder sampleMapping false [] Counters.init =
      (if false then
        (write_placeholder [] ["d"], { Counters.init with placeholders := 1 })
       else
        ([], { Counters.init with missing_no_placeholder := 1 }))) :=
  ⟨(copy_with_placeholder_rule_order sampleMapping true sampleDstFS Counters.init).1
      (by decide),
   ((copy_with_placeholder_rule_order sampleMapping true sampleSrcFS Counters.init).2.1
      (by decide) sampleFile (by decide)).1,
   (copy_with_placeholder_rule_order sampleMapping false [] Counters.init).2.2
      (by decide) (by decide)⟩

/-- **C4.**  For a mapping entry whose destination is absent and whose source
is absent: with placeholders enabled the destination is created with content
byte-identical to `PLACEHOLDER_PNG_BYTES` and the placeholder counter is
incremented; with placeholders disabled no file is created and the outcome is
`missing_no_placeholder`. -/
theorem copy_with_placeholder_missing_source (m : Mapping) (ap : Bool)
    (fs : FS) (cs : Counters)
    (hd : existsFS fs m.destination = false)
    (hs : lookupFS fs m.source = none) :
    (ap = true →
      (copy_with_placeholder m ap fs cs).2 =
        { cs with placeholders := cs.placeholders + 1 } ∧
      ∃ f, lookupFS (copy_with_placeholder m ap fs cs).1 m.destination = some f ∧
        f.content = PLACEHOLDER_PNG_BYTES) ∧
    (ap = false →
      copy_with_placeholder m ap fs cs =
        (fs, { cs with missing_no_placeholder := cs.missing_no_placeholder + 1 }) ∧
      existsFS (copy_with_placeholder m ap fs cs).1 m.destination = false) := by
  constructor
  · rintro rfl
    refine ⟨by simp [copy_with_placeholder, hd, hs], ⟨PLACEHOLDER_PNG_BYTES, 0⟩, ?_, rfl⟩
    simp [copy_with_placeholder, hd, hs, write_placeholder, lookupFS_writeFS_self]
  · rintro rfl
    have hd2 : lookupFS fs m.destination = none := by
      simpa [existsFS] using hd
    refine ⟨by simp [copy_with_placeholder, hd, hs], ?_⟩
    simp [copy_with_placeholder, existsFS, hd2, hs]

/-- Witness for C4 at a concrete empty filesystem. -/
theorem copy_with_placeholder_missing_source_witness :
    ((true : Bool) = true →
      (copy_with_placeholder sampleMapping true [] Counters.init).2 =
        { Counters.init with placeholders := 1 } ∧
      ∃ f, lookupFS (copy_with_placeholder sampleMapping true [] Counters.init).1
          ["d"] = some f ∧ f.content = PLACEHOLDER_PNG_BYTES) ∧
    ((true : Bool) = false →
      copy_with_placeholder sampleMapping true [] Counters.init =
        ([], { Counters.init with missing_no_placeholder := 1 }) ∧
      existsFS (copy_with_placeholder sampleMapping true [] Counters.init).1
        ["d"] = false) :=
  copy_with_placeholder_missing_source sampleMapping true [] Counters.init
    (by decide) (by decide)

/-- **C5 counterexample.**  `normalize_name "BlockMacerator"` does not return
the cleaned token `"macerator"`: the `block_` strip runs before camel-case
splitting, so the camel `Block` prefix is not recognized. -/
theorem normalize_name_blockmacerator_counterexample :
    (normalize_name "BlockMacerator").2 ≠ "macerator" := by decide

/-- **C5 amended.**  `normalize_name "BlockMacerator"` returns the cleaned
token `"block_macerator"` (and normalized `"ic2_block_macerator"`): the
leading camel-case `Block` prefix is kept, because the `item_`/`block_`
token strip happens before camel-case boundary splitting introduces the
underscore it would need. -/
theorem normalize_name_blockmacerator :
    normalize_name "BlockMacerator" = ("ic2_block_macerator", "block_macerator") := by
  decide

theorem bulkList_preserves (L : List (FPath × FileE)) (s t : FPath) :
    ∀ (fs : FS) (cs : Counters) (q : FPath) (g : FileE),
      lookupFS fs q = some g → lookupFS (bulkList L s t fs cs).1 q = some g := by
  induction L with
  | nil => intro fs cs q g h; simpa [bulkList] using h
  | cons hd tl ih =>
    intro fs cs q g h
    obtain ⟨p, f⟩ := hd
    by_cases he : existsFS fs (t ++ p.drop s.length) = true
    · simp only [bulkList, he, if_true]
      exact ih _ _ _ _ h
    · have he2 : existsFS fs (t ++ p.drop s.length) = false := by
        simpa using he
      simp only [bulkList, he2, Bool.false_eq_true, if_false]
      apply ih
      have hne : q ≠ t ++ p.drop s.length := by
        intro hq
        rw [hq] at h
        simp [existsFS, h] at he2
      rw [lookupFS_writeFS_ne _ _ _ _ hne]
      exact h

/-- **C6.**  The bulk synchronizer never overwrites: a discovered file whose
destination already exists is skipped (the filesystem is untouched by that
step, whatever the source's content) with the skipped counter incremented by
one, and any file present before a bulk run still holds its old content
afterwards. -/
theorem bulk_copy_pngs_never_overwrites (source_root target_root : FPath)
    (fs : FS) (cs : Counters) :
    (∀ (p : FPath) (f : FileE) (rest : List (FPath × FileE)),
      existsFS fs (target_root ++ p.drop source_root.length) = true →
      bulkList ((p, f) :: rest) source_root target_root fs cs =
        bulkList rest source_root target_root fs
          { cs with skipped_existing := cs.skipped_existing + 1 }) ∧
    (∀ (q : FPath) (g : FileE), lookupFS fs q = some g →
      lookupFS (bulk_copy_pngs source_root target_root fs cs).1 q = some g) := by
  constructor
  · intro p f rest he
    simp only [bulkList, he, if_true]
  · intro q g h
    exact bulkList_preserves _ _ _ fs cs q g h

/-- Witness for C6: the destination holds a sentinel, the source differs;
the step skips and the sentinel survives a full bulk run. -/
theorem bulk_copy_pngs_never_overwrites_witness :
    (existsFS [(["j", "x.png"], sampleFile), (["b", "x.png"], sentinelFile)]
        (["b"] ++ ["j", "x.png"].drop (["j"] : FPath).length) = true →
      bulkList [(["j", "x.png"], sampleFile)] ["j"] ["b"]
          [(["j", "x.png"], sampleFile), (["b", "x.png"], sentinelFile)] Counters.init =
        bulkList [] ["j"] ["b"]
          [(["j", "x.png"], sampleFile), (["b", "x.png"], sentinelFile)]
          { Counters.init with skipped_existing := 1 }) ∧
    lookupFS (bulk_copy_pngs ["j"] ["b"]
        [(["j", "x.png"], sampleFile), (["b", "x.png"], sentinelFile)] Counters.init).1
      ["b", "x.png"] = some sentinelFile :=
  ⟨fun he => (bulk_copy_pngs_never_overwrites ["j"] ["b"]
      [(["j", "x.png"], sampleFile), (["b", "x.png"], sentinelFile)] Counters.init).1
      ["j", "x.png"] sampleFile [] he,
   (bulk_copy_pngs_never_overwrites ["j"] ["b"]
      [(["j", "x.png"], sampleFile), (["b", "x.png"], sentinelFile)] Counters.init).2
      ["b", "x.png"] sentinelFile (by decide)⟩

theorem copyMachineList_counts (L : List (String × FileE)) (b : FPath) :
    ∀ (fs : FS) (cs : Counters),
      (copyMachineList L b fs cs).2 =
        { cs with mapped := cs.mapped + L.length } := by
  induction L with
  | nil => intro fs cs; simp [copyMachineList]
  | cons hd tl ih =>
    intro fs cs
    obtain ⟨n, f⟩ := hd
    simp only [copyMachineList]
    rw [ih]
    simp
    omega

theorem copyMachineList_lookup_other (L : List (String × FileE)) (b : FPath) :
    ∀ (fs : FS) (cs : Counters) (q : FPath),
      (∀ nf ∈ L, q ≠ b ++ ["blocks", "machine", nf.1]) →
      lookupFS (copyMachineList L b fs cs).1 q = lookupFS fs q := by
  induction L with
  | nil => intro fs cs q _; simp [copyMachineList]
  | cons hd tl ih =>
    intro fs cs q hq
    obtain ⟨n, f⟩ := hd
    simp only [copyMachineList]
    rw [ih _ _ _ (fun nf hnf => hq nf (List.mem_cons_of_mem _ hnf))]
    exact lookupFS_writeFS_ne _ _ _ _ (hq (n, f) (List.mem_cons_self _ _))

theorem copyMachineList_lookup (L : List (String × FileE)) (b : FPath) :
    ∀ (fs : FS) (cs : Counters), (L.map Prod.fst).Nodup →
      ∀ (n : String) (f : FileE), (n, f) ∈ L →
        lookupFS (copyMachineList L b fs cs).1 (b ++ ["blocks", "machine", n]) =
          some f := by
  induction L with
  | nil => intro fs cs _ n f h; simp at h
  | cons hd tl ih =>
    intro fs cs hnd n f hnf
    obtain ⟨n0, f0⟩ := hd
    simp only [List.map_cons, List.nodup_cons] at hnd
    simp only [copyMachineList]
    rcases List.mem_cons.mp hnf with heq | htl
    · cases heq
      have hne : ∀ mf ∈ tl,
          (b ++ ["blocks", "machine", n] : FPath) ≠ b ++ ["blocks", "machine", mf.1] := by
        intro mf hmf hqe
        have h3 : n = mf.1 := by
          have h2 := List.append_cancel_left hqe
          simpa using h2
        exact hnd.1 (h3 ▸ List.mem_map_of_mem Prod.fst hmf)
      rw [copyMachineList_lookup_other tl b _ _ _ hne]
      exact lookupFS_writeFS_self _ _ _
    · exact ih _ _ hnd.2 n f htl

/-- **C3 counterexample.**  The machine-variant sweep does not skip an
existing destination: with the derived destination already present holding
sentinel content, the sweep overwrites it with the source's content. -/
theorem copy_machine_variants_counterexample :
    existsFS sweepClashFS sweepDst = true ∧
    lookupFS sweepClashFS sweepDst = some sentinelFile ∧
    lookupFS (copy_machine_variants ["j"] ["b"] sweepClashFS Counters.init).1 sweepDst =
      some sampleFile ∧
    sampleFile ≠ sentinelFile := by decide

/-- **C3 amended.**  For every file found by the machine-variant sweep whose
name contains one of the fixed keyword substrings, the sweep never synthesizes
a placeholder (only the mapped counter moves, by the number of matching
files), and each matching file is copied unconditionally — the derived
destination afterwards holds the source file, even when it already existed
(overwrite, not the mapping resolver's destination-exists skip). -/
theorem copy_machine_variants_amended (java_root bedrock_root : FPath)
    (fs : FS) (cs : Counters)
    (hnd : ((machineMatchList fs java_root).map Prod.fst).Nodup) :
    (copy_machine_variants java_root bedrock_root fs cs).2 =
      { cs with mapped := cs.mapped + (machineMatchList fs java_root).length } ∧
    ∀ nf ∈ machineMatchList fs java_root,
      lookupFS (copy_machine_variants java_root bedrock_root fs cs).1
        (bedrock_root ++ ["blocks", "machine", nf.1]) = some nf.2 := by
  constructor
  · exact copyMachineList_counts _ _ fs cs
  · intro nf hnf
    exact copyMachineList_lookup _ _ fs cs hnd nf.1 nf.2 (by simpa using hnf)

/-- Witness for C3's amended theorem: one matching file whose destination
already exists with different content; it is overwritten and counted. -/
theorem copy_machine_variants_amended_witness :
    (copy_machine_variants ["j"] ["b"] sweepClashFS Counters.init).2 =
      { Counters.init with
          mapped := Counters.init.mapped + (machineMatchList sweepClashFS ["j"]).length } ∧
    ∀ nf ∈ machineMatchList sweepClashFS ["j"],
      lookupFS (copy_machine_variants ["j"] ["b"] sweepClashFS Counters.init).1
        (["b"] ++ ["blocks", "machine", nf.1]) = some nf.2 :=
  copy_machine_variants_amended ["j"] ["b"] sweepClashFS Counters.init (by decide)

/-- **C8.**  `get_color` checks the material keywords before the category
keywords with the first match winning: whenever some material keyword occurs
in the lowercased name the material loop's answer is returned (whatever the
category chain would say); `"copper_ore"` — containing both the material
keyword `"copper"` and the category keyword `"ore"` — resolves to copper's
color, not ore's; and a name matching no material and no category keyword
resolves to the default gray `(128, 128, 128)`. -/
theorem get_color_material_first :
    (∀ (name : String) (c : Color),
      firstMaterial (lowerList name.data) = some c → get_color name = c) ∧
    (get_color "copper_ore" = (184, 115, 51) ∧
      categoryColor (lowerList "copper_ore".data) = some (139, 119, 101) ∧
      ((184, 115, 51) : Color) ≠ (139, 119, 101)) ∧
    (∀ name : String, firstMaterial (lowerList name.data) = none →
      categoryColor (lowerList name.data) = none →
      get_color name = (128, 128, 128)) := by
  refine ⟨fun name c h => ?_, by decide, fun name h1 h2 => ?_⟩
  · simp [get_color, h]
  · simp [get_color, h1, h2]

/-- Witness for C8: the material rule fires on `"copper_ore"`, the default
gray fires on the keyword-free name `"slot"`. -/
theorem get_color_material_first_witness :
    get_color "copper_ore" = (184, 115, 51) ∧ get_color "slot" = (128, 128, 128) :=
  ⟨get_color_material_first.1 "copper_ore" (184, 115, 51) (by decide),
   get_color_material_first.2.2 "slot" (by decide) (by decide)⟩

/-- **C10.**  `resolve_destination` places a file under the blocks
destination directory exactly when the lowercased stem contains `"block"` or
`"blocks"` is a component of the source path; otherwise it places it under
the items destination directory; in both cases the file name is the
normalized identifier of the stem followed by `".png"`. -/
theorem resolve_destination_spec (stem : String) (source_parts : List String) :
    (DEST_BLOCKS <+: resolve_destination stem source_parts ↔
      (containsSub [ 'b', 'l', 'o', 'c', 'k' ] (lowerList stem.data) = true ∨
        source_parts.contains "blocks" = true)) ∧
    ((containsSub [ 'b', 'l', 'o', 'c', 'k' ] (lowerList stem.data) = false ∧
        source_parts.contains "blocks" = false) →
      DEST_ITEMS <+: resolve_destination stem source_parts) ∧
    (resolve_destination stem source_parts).getLast? =
      some ((normalize_name stem).1 ++ ".png") := by
  by_cases hc : (containsSub [ 'b', 'l', 'o', 'c', 'k' ] (lowerList stem.data)
      || source_parts.contains "blocks") = true
  · have hr : resolve_destination stem source_parts =
        DEST_BLOCKS ++ [(normalize_name stem).1 ++ ".png"] := by
      simp only [resolve_destination, hc, if_true]
    refine ⟨?_, ?_, ?_⟩
    · rw [hr]
      simp only [List.prefix_append, true_iff]
      exact Bool.or_eq_true _ _ ▸ hc
    · intro hno
      rw [hno.1, hno.2] at hc
      simp at hc
    · rw [hr, List.getLast?_concat]
  · have hc2 := hc
    simp only [Bool.or_eq_true, not_or] at hc2
    have hr : resolve_destination stem source_parts =
        DEST_ITEMS ++ [(normalize_name stem).1 ++ ".png"] := by
      simp only [resolve_destination]
      rw [if_neg hc]
    refine ⟨?_, fun _ => ?_, ?_⟩
    · rw [hr]
      constructor
      · intro hpre
        exfalso
        simp only [DEST_BLOCKS, DEST_ITEMS, List.cons_append, List.nil_append,
          List.cons_prefix_cons] at hpre
        exact absurd hpre.2.2.1 (by decide)
      · intro hor
        rcases hor with h1 | h1
        · exact absurd h1 hc2.1
        · exact absurd h1 hc2.2
    · rw [hr]
      exact List.prefix_append _ _
    · rw [hr, List.getLast?_concat]

/-- Witness for C10's conditional part at a concrete items-side input. -/
theorem resolve_destination_spec_witness :
    (containsSub [ 'b', 'l', 'o', 'c', 'k' ] (lowerList "copper_dust".data) = false ∧
      (["items", "copper_dust.png"] : List String).contains "blocks" = false) →
    DEST_ITEMS <+: resolve_destination "copper_dust" ["items", "copper_dust.png"] :=
  fun h => (resolve_destination_spec "copper_dust" ["items", "copper_dust.png"]).2.1 h

/-! ### Character-level lemmas for the normalizer -/

theorem toNat_lowerChar (c : Char) (h : isUpperChar c = true) :
    (lowerChar c).toNat = c.toNat + 32 := by
  have h2 : 65 ≤ c.toNat ∧ c.toNat ≤ 90 := by
    simpa [isUpperChar] using h
  have hv : (c.toNat + 32).isValidChar := Or.inl (by omega)
  unfold lowerChar
  rw [if_pos h]
  unfold Char.ofNat
  rw [dif_pos hv]
  rfl

theorem lowerChar_of_not_upper (c : Char) (h : isUpperChar c = false) :
    lowerChar c = c := by
  simp [lowerChar, h]

theorem lowerChar_underscore (c : Char) : lowerChar c = '_' ↔ c = '_' := by
  constructor
  · intro h
    by_cases hu : isUpperChar c = true
    · exfalso
      have h1 := toNat_lowerChar c hu
      rw [h] at h1
      have h2 : 65 ≤ c.toNat ∧ c.toNat ≤ 90 := by simpa [isUpperChar] using hu
      have h3 : ('_').toNat = 95 := by decide
      omega
    · rw [lowerChar_of_not_upper c (by simpa using hu)] at h
      exact h
  · intro h
    subst h
    decide

theorem goodChar_lowerChar (c : Char) (h : alnumU c = true) :
    goodChar (lowerChar c) = true := by
  by_cases hu : isUpperChar c = true
  · have h1 := toNat_lowerChar c hu
    have h2 : 65 ≤ c.toNat ∧ c.toNat ≤ 90 := by simpa [isUpperChar] using hu
    have h3 : isLowerChar (lowerChar c) = true := by
      simp [isLowerChar]
      omega
    simp [goodChar, h3]
  · have hu2 : isUpperChar c = false := by simpa using hu
    rw [lowerChar_of_not_upper c hu2]
    simp [goodChar]
    simp [alnumU, isAlnumChar, hu2] at h
    tauto

/-! ### The squash stage emits no double underscore and only `alnumU` chars -/

theorem squashAux_mem (l : List Char) :
    ∀ b : Bool, ∀ c ∈ squashAux b l, alnumU c = true := by
  induction l with
  | nil => intro b c hc; simp [squashAux] at hc
  | cons d rest ih =>
    intro b c hc
    by_cases hd : isAlnumChar d = true
    · simp only [squashAux, hd, if_true] at hc
      rcases List.mem_cons.mp hc with rfl | hc2
      · simp [alnumU, hd]
      · exact ih false c hc2
    · have hd2 : isAlnumChar d = false := by simpa using hd
      cases b with
      | true =>
        simp only [squashAux, hd2, Bool.false_eq_true, if_false, if_true] at hc
        exact ih true c hc
      | false =>
        simp only [squashAux, hd2, Bool.false_eq_true, if_false] at hc
        rcases List.mem_cons.mp hc with rfl | hc2
        · decide
        · exact ih true c hc2

theorem squashAux_true_head (l : List Char) :
    ∀ c cs, squashAux true l = c :: cs → isAlnumChar c = true := by
  induction l with
  | nil => intro c cs h; simp [squashAux] at h
  | cons d rest ih =>
    intro c cs h
    by_cases hd : isAlnumChar d = true
    · simp only [squashAux, hd, if_true, List.cons.injEq] at h
      rw [← h.1]
      exact hd
    · have hd2 : isAlnumChar d = false := by simpa using hd
      simp only [squashAux, hd2, Bool.false_eq_true, if_false, if_true] at h
      exact ih c cs h

theorem NoDbl_squashAux (l : List Char) : ∀ b : Bool, NoDbl (squashAux b l) := by
  induction l with
  | nil => intro b; simp [squashAux, NoDbl]
  | cons d rest ih =>
    intro b
    by_cases hd : isAlnumChar d = true
    · simp only [squashAux, hd, if_true]
      rw [NoDbl, List.chain'_cons']
      refine ⟨?_, ih false⟩
      intro x _ hcon
      rw [hcon.1] at hd
      exact absurd hd (by decide)
    · have hd2 : isAlnumChar d = false := by simpa using hd
      cases b with
      | true =>
        simp only [squashAux, hd2, Bool.false_eq_true, if_false, if_true]
        exact ih true
      | false =>
        simp only [squashAux, hd2, Bool.false_eq_true, if_false]
        rw [NoDbl, List.chain'_cons']
        refine ⟨?_, ih true⟩
        intro x hx hcon
        cases heq : squashAux true rest with
        | nil => rw [heq] at hx; simp at hx
        | cons y ys =>
          rw [heq] at hx
          simp at hx
          subst hx
          have hy := squashAux_true_head rest y ys heq
          rw [hcon.2] at hy
          exact absurd hy (by decide)

/-! ### The later stages preserve the no-double-underscore invariant -/

theorem NoDbl_stripItemBlock (l : List Char) (h : NoDbl l) :
    NoDbl (stripItemBlock l) := by
  unfold stripItemBlock
  split
  · exact List.Chain'.suffix h (List.drop_suffix 5 l)
  · split
    · exact List.Chain'.suffix h (List.drop_suffix 6 l)
    · exact h

theorem camelIns_head (l : List Char) : (camelIns l).head? = l.head? := by
  match l with
  | [] => rfl
  | [c] => rfl
  | c1 :: c2 :: rest =>
    simp only [camelIns]
    split <;> rfl

theorem NoDbl_camelIns : ∀ l : List Char, NoDbl l → NoDbl (camelIns l)
  | [], h => h
  | [c], h => h
  | c1 :: c2 :: rest, h => by
    have h12 := (List.chain'_cons.mp h).1
    have h2 := (List.chain'_cons.mp h).2
    have hrest : NoDbl rest := (List.chain'_cons'.mp h2).2
    by_cases hb : (isLowerDigitChar c1 && isUpperChar c2) = true
    · simp only [camelIns, hb, if_true]
      have hc1 : c1 ≠ '_' := by
        intro he
        rw [he] at hb
        simp only [Bool.and_eq_true] at hb
        exact absurd hb.1 (by decide)
      have hc2 : c2 ≠ '_' := by
        intro he
        rw [he] at hb
        simp only [Bool.and_eq_true] at hb
        exact absurd hb.2 (by decide)
      refine List.chain'_cons.mpr ⟨fun hcon => hc1 hcon.1,
        List.chain'_cons.mpr ⟨fun hcon => hc2 hcon.2,
          List.chain'_cons'.mpr ⟨?_, NoDbl_camelIns rest hrest⟩⟩⟩
      intro x _ hcon
      exact hc2 hcon.1
    · have hb2 : (isLowerDigitChar c1 && isUpperChar c2) = false := by
        simpa using hb
      simp only [camelIns, hb2, Bool.false_eq_true, if_false]
      refine List.chain'_cons'.mpr ⟨?_, NoDbl_camelIns (c2 :: rest) h2⟩
      intro x hx
      rw [camelIns_head] at hx
      simp only [List.head?_cons, Option.mem_def, Option.some.injEq] at hx
      rw [← hx]
      exact h12

theorem replaceDouble_eq_self : ∀ l : List Char, NoDbl l → replaceDouble l = l
  | [], _ => rfl
  | [c], _ => rfl
  | c :: d :: rest, h => by
    have h1 := (List.chain'_cons.mp h).1
    have h2 := (List.chain'_cons.mp h).2
    have hcd : ((c = '_' : Bool) && (d = '_' : Bool)) = false := by
      by_cases hc : c = '_'
      · by_cases hdd : d = '_'
        · exact absurd ⟨hc, hdd⟩ h1
        · simp [hc, hdd]
      · simp [hc]
    simp only [replaceDouble, hcd, Bool.false_eq_true, if_false, List.cons.injEq,
      true_and]
    exact replaceDouble_eq_self (d :: rest) h2

theorem collapseUnderscores_eq_self :
    ∀ l : List Char, NoDbl l → collapseUnderscores l = l
  | [], _ => rfl
  | [c], _ => rfl
  | c :: d :: rest, h => by
    have h1 := (List.chain'_cons.mp h).1
    have h2 := (List.chain'_cons.mp h).2
    have hcd : ((c = '_' : Bool) && (d = '_' : Bool)) = false := by
      by_cases hc : c = '_'
      · by_cases hdd : d = '_'
        · exact absurd ⟨hc, hdd⟩ h1
        · simp [hc, hdd]
      · simp [hc]
    simp only [collapseUnderscores, hcd, Bool.false_eq_true, if_false,
      List.cons.injEq, true_and]
    exact collapseUnderscores_eq_self (d :: rest) h2

theorem NoDbl_lowerList (l : List Char) (h : NoDbl l) : NoDbl (lowerList l) := by
  rw [NoDbl, lowerList, List.chain'_map]
  refine List.Chain'.imp ?_ h
  intro a b hab hcon
  exact hab ⟨(lowerChar_underscore a).mp hcon.1, (lowerChar_underscore b).mp hcon.2⟩

/-- **C7.**  `normalize_name` performs, in order: replacement of every run of
non-alphanumeric characters by a single underscore; case-insensitive strip of
a leading `item_`/`block_` token; camel-boundary underscore insertion before
lowercasing; collapse of duplicate underscores; trim of leading and trailing
underscores — for every input the cleaned token equals the result of that
step list (with a genuine full collapse, which the code's single
`replace("__", "_")` pass achieves because no stage ever produces two
adjacent underscores).  In particular `"item_CopperIngot"` yields cleaned
`"copper_ingot"` with the namespace prefix applied exactly once, and the
empty stem yields the empty cleaned string. -/
theorem normalize_name_spec_steps :
    (∀ stem : String, (normalize_name stem).2 = spec_cleaned stem) ∧
    normalize_name "item_CopperIngot" = ("ic2_copper_ingot", "copper_ingot") ∧
    normalize_name "" = ("ic2_", "") := by
  refine ⟨fun stem => ?_, by decide, by decide⟩
  have hX : NoDbl (stripItemBlock (squashNonAlnum stem.data)) :=
    NoDbl_stripItemBlock _ (NoDbl_squashAux _ false)
  have hC : NoDbl (camelIns (stripItemBlock (squashNonAlnum stem.data))) :=
    NoDbl_camelIns _ hX
  simp only [normalize_name, camel_to_snake, spec_cleaned]
  rw [replaceDouble_eq_self _ hC,
    collapseUnderscores_eq_self _ (NoDbl_lowerList _ hC)]

/-! ### Lemmas for the shape of the cleaned token -/

theorem camelIns_mem : ∀ l : List Char, ∀ c ∈ camelIns l, c ∈ l ∨ c = '_'
  | [], c, hc => Or.inl hc
  | [d], c, hc => Or.inl hc
  | c1 :: c2 :: rest, c, hc => by
    by_cases hb : (isLowerDigitChar c1 && isUpperChar c2) = true
    · simp only [camelIns, hb, if_true] at hc
      rcases List.mem_cons.mp hc with rfl | hc
      · exact Or.inl (List.mem_cons_self _ _)
      rcases List.mem_cons.mp hc with rfl | hc
      · exact Or.inr rfl
      rcases List.mem_cons.mp hc with rfl | hc
      · exact Or.inl (List.mem_cons_of_mem _ (List.mem_cons_self _ _))
      rcases camelIns_mem rest c hc with h | h
      · exact Or.inl (List.mem_cons_of_mem _ (List.mem_cons_of_mem _ h))
      · exact Or.inr h
    · have hb2 : (isLowerDigitChar c1 && isUpperChar c2) = false := by
        simpa using hb
      simp only [camelIns, hb2, Bool.false_eq_true, if_false] at hc
      rcases List.mem_cons.mp hc with rfl | hc
      · exact Or.inl (List.mem_cons_self _ _)
      rcases camelIns_mem (c2 :: rest) c hc with h | h
      · exact Or.inl (List.mem_cons_of_mem _ h)
      · exact Or.inr h

theorem stripItemBlock_subset (l : List Char) : ∀ c ∈ stripItemBlock l, c ∈ l := by
  intro c hc
  unfold stripItemBlock at hc
  split at hc
  · exact List.drop_subset _ _ hc
  · split at hc
    · exact List.drop_subset _ _ hc
    · exact hc

theorem stripUnderscores_subset (l : List Char) : ∀ c ∈ stripUnderscores l, c ∈ l := by
  intro c hc
  unfold stripUnderscores at hc
  have h1 := List.mem_reverse.mp hc
  have h2 := (List.dropWhile_suffix _).subset h1
  have h3 := List.mem_reverse.mp h2
  exact (List.dropWhile_suffix _).subset h3

theorem dropWhile_head_false (p : Char → Bool) (l : List Char) (x : Char)
    (xs : List Char) (h : l.dropWhile p = x :: xs) : p x = false := by
  have h2 := List.head?_dropWhile_not p l
  simp [h] at h2
  exact h2

theorem stripUnderscores_head (l : List Char) :
    (stripUnderscores l).head? ≠ some '_' := by
  unfold stripUnderscores
  cases heq :
      (l.dropWhile (fun c => c = '_')).reverse.dropWhile (fun c => c = '_') with
  | nil => simp [heq]
  | cons x xs =>
    rw [List.head?_reverse]
    obtain ⟨t, ht⟩ :
        (x :: xs : List Char) <:+ (l.dropWhile (fun c => c = '_')).reverse := by
      rw [← heq]
      exact List.dropWhile_suffix _
    have h4 : (t ++ x :: xs).getLast? = (x :: xs).getLast? :=
      List.getLast?_append_of_ne_nil t (by simp)
    rw [ht, List.getLast?_reverse] at h4
    rw [← h4]
    cases heq2 : l.dropWhile (fun c => c = '_') with
    | nil => simp
    | cons y ys =>
      have hy := dropWhile_head_false _ _ _ _ heq2
      simp only [List.head?_cons, ne_eq, Option.some.injEq]
      intro hcon
      rw [hcon] at hy
      simp at hy

theorem stripUnderscores_getLast (l : List Char) :
    (stripUnderscores l).getLast? ≠ some '_' := by
  unfold stripUnderscores
  rw [List.getLast?_reverse]
  cases heq :
      (l.dropWhile (fun c => c = '_')).reverse.dropWhile (fun c => c = '_') with
  | nil => simp
  | cons x xs =>
    have hx := dropWhile_head_false _ _ _ _ heq
    simp only [List.head?_cons, ne_eq, Option.some.injEq]
    intro hcon
    rw [hcon] at hx
    simp at hx

theorem startsWithChars_iff : ∀ p l : List Char, startsWithChars p l = true ↔ p <+: l
  | [], l => by simp [startsWithChars]
  | c :: cs, [] => by
    simp [startsWithChars]
  | c :: cs, d :: ds => by
    rw [startsWithChars, List.cons_prefix_cons, Bool.and_eq_true, decide_eq_true_eq,
      startsWithChars_iff cs ds]

theorem goodChar_cleaned (stem : String) :
    ∀ c ∈ (normalize_name stem).2.data, goodChar c = true := by
  intro c hc
  have hX : NoDbl (stripItemBlock (squashNonAlnum stem.data)) :=
    NoDbl_stripItemBlock _ (NoDbl_squashAux _ false)
  have hc2 : c ∈ stripUnderscores (camel_to_snake (stripItemBlock
      (squashNonAlnum stem.data))) := hc
  have hc3 := stripUnderscores_subset _ c hc2
  unfold camel_to_snake at hc3
  rw [replaceDouble_eq_self _ (NoDbl_camelIns _ hX)] at hc3
  rcases List.mem_map.mp hc3 with ⟨a, ha, rfl⟩
  apply goodChar_lowerChar
  rcases camelIns_mem _ a ha with h | rfl
  · exact squashAux_mem stem.data false a (stripItemBlock_subset _ a h)
  · decide

/-- **C9.**  For every input string the cleaned token returned by
`normalize_name` consists only of lowercase ASCII letters, digits and
underscores, neither starts nor ends with an underscore, and the normalized
identifier always starts with the namespace prefix `ic2_`. -/
theorem normalize_name_shape (stem : String) :
    (∀ c ∈ (normalize_name stem).2.data, goodChar c = true) ∧
    (normalize_name stem).2.data.head? ≠ some '_' ∧
    (normalize_name stem).2.data.getLast? ≠ some '_' ∧
    ic2Tag <+: (normalize_name stem).1.data := by
  refine ⟨goodChar_cleaned stem, ?_, ?_, ?_⟩
  · exact stripUnderscores_head _
  · exact stripUnderscores_getLast _
  · show ic2Tag <+:
      (if startsWithChars ic2Tag (stripUnderscores (camel_to_snake (stripItemBlock
          (squashNonAlnum stem.data)))) = true then
        stripUnderscores (camel_to_snake (stripItemBlock (squashNonAlnum stem.data)))
      else ic2Tag ++ stripUnderscores (camel_to_snake (stripItemBlock
          (squashNonAlnum stem.data))))
    split
    case isTrue h => exact (startsWithChars_iff _ _).mp h
    case isFalse h => exact List.prefix_append _ _

/-- Witness for C9 at the concrete stem `"item_CopperIngot"` and the concrete
cleaned character `'c'`. -/
theorem normalize_name_shape_witness :
    goodChar 'c' = true ∧
    ic2Tag <+: (normalize_name "item_CopperIngot").1.data :=
  ⟨(normalize_name_shape "item_CopperIngot").1 'c' (by decide),
   (normalize_name_shape "item_CopperIngot").2.2.2⟩

/-! ### Infrastructure for the idempotence analysis of `extract_textures`

Throughout, `outside root fs` is the sublist of filesystem entries whose path
does not lie under `root`; every write the extractor performs targets a path
under the bedrock root, so this sublist — in particular the whole java-side
source tree — is invariant. -/

theorem prefixComparable {l1 l2 l3 : FPath} (h1 : l1 <+: l3) (h2 : l2 <+: l3) :
    l1 <+: l2 ∨ l2 <+: l1 := by
  rcases le_total l1.length l2.length with h | h
  · exact Or.inl (List.prefix_of_prefix_length_le h1 h2 h)
  · exact Or.inr (List.prefix_of_prefix_length_le h2 h1 h)

theorem notUnderBedrock (java_root bedrock_root q : FPath)
    (hd1 : ¬ java_root <+: bedrock_root) (hd2 : ¬ bedrock_root <+: java_root)
    (hq : java_root <+: q) : bedrock_root.isPrefixOf q = false := by
  by_cases hb : bedrock_root.isPrefixOf q = true
  · rcases prefixComparable hq (List.isPrefixOf_iff_prefix.mp hb) with h | h
    · exact absurd h hd1
    · exact absurd h hd2
  · exact Bool.eq_false_iff.mpr hb

theorem writeFS_outside (root p : FPath) (f : FileE) (hp : root <+: p) :
    ∀ fs : FS, outside root (writeFS fs p f) = outside root fs := by
  intro fs
  induction fs with
  | nil =>
    simp [writeFS, outside, List.isPrefixOf_iff_prefix, hp]
  | cons hd tl ih =>
    obtain ⟨q, g⟩ := hd
    by_cases hq : q = p
    · subst hq
      simp only [writeFS, if_pos rfl]
      simp [outside, List.filter_cons, List.isPrefixOf_iff_prefix, hp]
    · simp only [writeFS, if_neg hq]
      have ih2 : List.filter (fun pf => !(root.isPrefixOf pf.1)) (writeFS tl p f) =
          List.filter (fun pf => !(root.isPrefixOf pf.1)) tl := ih
      simp only [outside, List.filter_cons]
      rw [ih2]

theorem writeFS_cons (q : FPath) (g : FileE) (tl : FS) (p : FPath) (f : FileE) :
    writeFS ((q, g) :: tl) p f =
      if q = p then (p, f) :: tl else (q, g) :: writeFS tl p f := rfl

theorem writeFS_keys (fs : FS) (p : FPath) (f : FileE) :
    ∀ r ∈ (writeFS fs p f).map Prod.fst, r ∈ fs.map Prod.fst ∨ r = p := by
  induction fs with
  | nil =>
    intro r hr
    simp only [writeFS, List.map_cons, List.map_nil, List.mem_cons,
      List.not_mem_nil, or_false] at hr
    exact Or.inr hr
  | cons hd tl ih =>
    obtain ⟨q, g⟩ := hd
    intro r hr
    by_cases hq : q = p
    · rw [writeFS_cons, if_pos hq] at hr
      simp only [List.map_cons, List.mem_cons] at hr
      rcases hr with rfl | hr
      · exact Or.inr rfl
      · exact Or.inl (List.mem_cons_of_mem _ hr)
    · rw [writeFS_cons, if_neg hq] at hr
      simp only [List.map_cons, List.mem_cons] at hr
      rcases hr with rfl | hr
      · exact Or.inl (List.mem_cons_self _ _)
      · rcases ih r hr with h | h
        · exact Or.inl (List.mem_cons_of_mem _ h)
        · exact Or.inr h

theorem writeFS_nodup (fs : FS) (p : FPath) (f : FileE)
    (h : (fs.map Prod.fst).Nodup) : ((writeFS fs p f).map Prod.fst).Nodup := by
  induction fs with
  | nil => simp [writeFS]
  | cons hd tl ih =>
    obtain ⟨q, g⟩ := hd
    simp only [List.map_cons, List.nodup_cons] at h
    by_cases hq : q = p
    · rw [writeFS_cons, if_pos hq]
      simp only [List.map_cons, List.nodup_cons]
      subst hq
      exact ⟨h.1, h.2⟩
    · rw [writeFS_cons, if_neg hq]
      simp only [List.map_cons, List.nodup_cons]
      refine ⟨?_, ih h.2⟩
      intro hq2
      rcases writeFS_keys tl p f q hq2 with h3 | h3
      · exact h.1 h3
      · exact hq h3

theorem cwp_fs_cases (m : Mapping) (ap : Bool) (fs : FS) (cs : Counters) :
    (copy_with_placeholder m ap fs cs).1 = fs ∨
    (existsFS fs m.destination = false ∧
      ∃ f, (copy_with_placeholder m ap fs cs).1 = writeFS fs m.destination f) := by
  by_cases hd : existsFS fs m.destination = true
  · left
    simp [copy_with_placeholder, hd]
  · have hd2 : existsFS fs m.destination = false := by simpa using hd
    cases hs : lookupFS fs m.source with
    | some f => exact Or.inr ⟨hd2, f, by simp [copy_with_placeholder, hd2, hs]⟩
    | none =>
      cases ap with
      | true =>
        exact Or.inr ⟨hd2, ⟨PLACEHOLDER_PNG_BYTES, 0⟩,
          by simp [copy_with_placeholder, hd2, hs, write_placeholder]⟩
      | false =>
        left
        simp [copy_with_placeholder, hd2, hs]

theorem cwp_pres (m : Mapping) (ap : Bool) (fs : FS) (cs : Counters) :
    ∀ (q : FPath) (g : FileE), lookupFS fs q = some g →
      lookupFS (copy_with_placeholder m ap fs cs).1 q = some g := by
  intro q g h
  rcases cwp_fs_cases m ap fs cs with he | ⟨hd, f, he⟩
  · rw [he]
    exact h
  · rw [he]
    have hne : q ≠ m.destination := by
      intro hq
      rw [hq] at h
      simp [existsFS, h] at hd
    rw [lookupFS_writeFS_ne _ _ _ _ hne]
    exact h

theorem cwp_outside (bedrock_root : FPath) (m : Mapping) (ap : Bool)
    (fs : FS) (cs : Counters) (hm : bedrock_root <+: m.destination) :
    outside bedrock_root (copy_with_placeholder m ap fs cs).1 =
      outside bedrock_root fs := by
  rcases cwp_fs_cases m ap fs cs with he | ⟨_, f, he⟩ <;> rw [he]
  exact writeFS_outside _ _ _ hm fs

theorem cwp_nodup (m : Mapping) (ap : Bool) (fs : FS) (cs : Counters)
    (h : (fs.map Prod.fst).Nodup) :
    (((copy_with_placeholder m ap fs cs).1).map Prod.fst).Nodup := by
  rcases cwp_fs_cases m ap fs cs with he | ⟨_, f, he⟩ <;> rw [he]
  · exact h
  · exact writeFS_nodup _ _ _ h

theorem cwp_post_dest (m : Mapping) (fs : FS) (cs : Counters) :
    existsFS (copy_with_placeholder m true fs cs).1 m.destination = true := by
  by_cases hd : existsFS fs m.destination = true
  · simp [copy_with_placeholder, hd]
  · have hd2 : existsFS fs m.destination = false := by simpa using hd
    have hd3 : (lookupFS fs m.destination).isSome = false := hd2
    cases hs : lookupFS fs m.source with
    | some f =>
      simp [copy_with_placeholder, hd3, hs, existsFS, lookupFS_writeFS_self]
    | none =>
      simp [copy_with_placeholder, hd3, hs, write_placeholder, existsFS,
        lookupFS_writeFS_self]

theorem runMappings_pres (L : List Mapping) (ap : Bool) :
    ∀ (fs : FS) (cs : Counters) (q : FPath) (g : FileE),
      lookupFS fs q = some g → lookupFS (runMappings L ap fs cs).1 q = some g := by
  induction L with
  | nil => intro fs cs q g h; exact h
  | cons m rest ih =>
    intro fs cs q g h
    simp only [runMappings]
    exact ih _ _ q g (cwp_pres m ap fs cs q g h)

theorem runMappings_mono (L : List Mapping) (ap : Bool)
    (fs : FS) (cs : Counters) (q : FPath)
    (h : existsFS fs q = true) : existsFS (runMappings L ap fs cs).1 q = true := by
  simp only [existsFS, Option.isSome_iff_exists] at h ⊢
  obtain ⟨g, hg⟩ := h
  exact ⟨g, runMappings_pres L ap fs cs q g hg⟩

theorem runMappings_outside (L : List Mapping) (ap : Bool) (bedrock_root : FPath)
    (hL : ∀ m ∈ L, bedrock_root <+: m.destination) :
    ∀ (fs : FS) (cs : Counters),
      outside bedrock_root (runMappings L ap fs cs).1 = outside bedrock_root fs := by
  induction L with
  | nil => intro fs cs; rfl
  | cons m rest ih =>
    intro fs cs
    simp only [runMappings]
    rw [ih (fun m2 hm2 => hL m2 (List.mem_cons_of_mem _ hm2)) _ _,
      cwp_outside _ _ _ _ _ (hL m (List.mem_cons_self _ _))]

theorem runMappings_nodup (L : List Mapping) (ap : Bool) :
    ∀ (fs : FS) (cs : Counters), (fs.map Prod.fst).Nodup →
      (((runMappings L ap fs cs).1).map Prod.fst).Nodup := by
  induction L with
  | nil => intro fs cs h; exact h
  | cons m rest ih =>
    intro fs cs h
    simp only [runMappings]
    exact ih _ _ (cwp_nodup m ap fs cs h)

theorem runMappings_post_dest (L : List Mapping) :
    ∀ (fs : FS) (cs : Counters) (m : Mapping), m ∈ L →
      existsFS (runMappings L true fs cs).1 m.destination = true := by
  induction L with
  | nil => intro fs cs m hm; simp at hm
  | cons m0 rest ih =>
    intro fs cs m hm
    simp only [runMappings]
    rcases List.mem_cons.mp hm with rfl | hm2
    · exact runMappings_mono rest true _ _ _ (cwp_post_dest m fs cs)
    · exact ih _ _ m hm2

theorem runMappings_skip (L : List Mapping) (ap : Bool) :
    ∀ (fs : FS) (cs : Counters),
      (∀ m ∈ L, existsFS fs m.destination = true) →
      runMappings L ap fs cs =
        (fs, { cs with skipped_existing := cs.skipped_existing + L.length }) := by
  induction L with
  | nil => intro fs cs _; simp [runMappings]
  | cons m rest ih =>
    intro fs cs hall
    have hm := hall m (List.mem_cons_self _ _)
    have hstep : copy_with_placeholder m ap fs cs =
        (fs, { cs with skipped_existing := cs.skipped_existing + 1 }) := by
      simp [copy_with_placeholder, hm]
    simp only [runMappings, hstep]
    rw [ih fs _ (fun m2 hm2 => hall m2 (List.mem_cons_of_mem _ hm2))]
    cases cs
    simp only [Prod.mk.injEq, Counters.mk.injEq, List.length_cons, true_and,
      and_true]
    omega

theorem copyMachineList_mono (L : List (String × FileE)) (b : FPath) :
    ∀ (fs : FS) (cs : Counters) (q : FPath),
      existsFS fs q = true → existsFS (copyMachineList L b fs cs).1 q = true := by
  induction L with
  | nil => intro fs cs q h; exact h
  | cons hd tl ih =>
    intro fs cs q h
    obtain ⟨n, f⟩ := hd
    simp only [copyMachineList]
    apply ih
    rw [existsFS_writeFS]
    simp [h]

theorem copyMachineList_outside (L : List (String × FileE)) (bedrock_root : FPath) :
    ∀ (fs : FS) (cs : Counters),
      outside bedrock_root (copyMachineList L bedrock_root fs cs).1 =
        outside bedrock_root fs := by
  induction L with
  | nil => intro fs cs; rfl
  | cons hd tl ih =>
    intro fs cs
    obtain ⟨n, f⟩ := hd
    simp only [copyMachineList]
    rw [ih, writeFS_outside _ _ _ (List.prefix_append _ _)]

theorem copyMachineList_nodup (L : List (String × FileE)) (b : FPath) :
    ∀ (fs : FS) (cs : Counters), (fs.map Prod.fst).Nodup →
      (((copyMachineList L b fs cs).1).map Prod.fst).Nodup := by
  induction L with
  | nil => intro fs cs h; exact h
  | cons hd tl ih =>
    intro fs cs h
    obtain ⟨n, f⟩ := hd
    simp only [copyMachineList]
    exact ih _ _ (writeFS_nodup _ _ _ h)

theorem copyMachineList_noop (L : List (String × FileE)) (b : FPath) :
    ∀ (fs : FS) (cs : Counters),
      (∀ nf ∈ L, lookupFS fs (b ++ ["blocks", "machine", nf.1]) = some nf.2) →
      copyMachineList L b fs cs =
        (fs, { cs with mapped := cs.mapped + L.length }) := by
  induction L with
  | nil => intro fs cs _; simp [copyMachineList]
  | cons hd tl ih =>
    intro fs cs hall
    obtain ⟨n, f⟩ := hd
    have h0 := hall (n, f) (List.mem_cons_self _ _)
    simp only [copyMachineList]
    rw [writeFS_noop _ _ _ h0,
      ih fs _ (fun nf hnf => hall nf (List.mem_cons_of_mem _ hnf))]
    cases cs
    simp only [Prod.mk.injEq, Counters.mk.injEq, List.length_cons, true_and,
      and_true]
    omega

theorem bulkList_mono (L : List (FPath × FileE)) (s t : FPath)
    (fs : FS) (cs : Counters) (q : FPath)
    (h : existsFS fs q = true) : existsFS (bulkList L s t fs cs).1 q = true := by
  simp only [existsFS, Option.isSome_iff_exists] at h ⊢
  obtain ⟨g, hg⟩ := h
  exact ⟨g, bulkList_preserves L s t fs cs q g hg⟩

theorem bulkList_outside (L : List (FPath × FileE)) (s : FPath)
    (bedrock_root t : FPath) (ht : bedrock_root <+: t) :
    ∀ (fs : FS) (cs : Counters),
      outside bedrock_root (bulkList L s t fs cs).1 = outside bedrock_root fs := by
  induction L with
  | nil => intro fs cs; rfl
  | cons hd tl ih =>
    intro fs cs
    obtain ⟨p, f⟩ := hd
    simp only [bulkList]
    split
    · rw [ih]
    · rw [ih, writeFS_outside _ _ _ (ht.trans (List.prefix_append _ _))]

theorem bulkList_nodup (L : List (FPath × FileE)) (s t : FPath) :
    ∀ (fs : FS) (cs : Counters), (fs.map Prod.fst).Nodup →
      (((bulkList L s t fs cs).1).map Prod.fst).Nodup := by
  induction L with
  | nil => intro fs cs h; exact h
  | cons hd tl ih =>
    intro fs cs h
    obtain ⟨p, f⟩ := hd
    simp only [bulkList]
    split
    · exact ih _ _ h
    · exact ih _ _ (writeFS_nodup _ _ _ h)

theorem bulkList_post_dest (L : List (FPath × FileE)) (s t : FPath) :
    ∀ (fs : FS) (cs : Counters) (pf : FPath × FileE), pf ∈ L →
      existsFS (bulkList L s t fs cs).1 (t ++ pf.1.drop s.length) = true := by
  induction L with
  | nil => intro fs cs pf hpf; simp at hpf
  | cons hd tl ih =>
    intro fs cs pf hpf
    obtain ⟨p, f⟩ := hd
    rcases List.mem_cons.mp hpf with rfl | hpf2
    · simp only [bulkList]
      split
      case isTrue he => exact bulkList_mono tl s t _ _ _ he
      case isFalse he =>
        apply bulkList_mono
        rw [existsFS_writeFS]
        simp
    · simp only [bulkList]
      split
      · exact ih _ _ pf hpf2
      · exact ih _ _ pf hpf2

theorem bulkList_skip (L : List (FPath × FileE)) (s t : FPath) :
    ∀ (fs : FS) (cs : Counters),
      (∀ pf ∈ L, existsFS fs (t ++ pf.1.drop s.length) = true) →
      bulkList L s t fs cs =
        (fs, { cs with skipped_existing := cs.skipped_existing + L.length }) := by
  induction L with
  | nil => intro fs cs _; simp [bulkList]
  | cons hd tl ih =>
    intro fs cs hall
    obtain ⟨p, f⟩ := hd
    have h0 := hall (p, f) (List.mem_cons_self _ _)
    simp only [bulkList, h0, if_true]
    rw [ih fs _ (fun pf hpf => hall pf (List.mem_cons_of_mem _ hpf))]
    cases cs
    simp only [Prod.mk.injEq, Counters.mk.injEq, List.length_cons, true_and,
      and_true]
    omega

theorem filterM_of_filter {α : Type} (P : FPath × FileE → Bool)
    (g : FPath × FileE → Option α)
    (hg : ∀ pf, (g pf).isSome = true → P pf = true) :
    ∀ fs : FS, fs.filterMap g = (fs.filter P).filterMap g := by
  intro fs
  induction fs with
  | nil => rfl
  | cons hd tl ih =>
    cases hgd : g hd with
    | none =>
      cases hP : P hd
      · simp [List.filterMap_cons, List.filter_cons, hgd, hP, ih]
      · simp [List.filterMap_cons, List.filter_cons, hgd, hP, ih]
    | some a =>
      have hP : P hd = true := hg hd (by simp [hgd])
      simp [List.filterMap_cons, List.filter_cons, hgd, hP, ih]

theorem filter_of_filter (P Q : FPath × FileE → Bool)
    (hq : ∀ pf, Q pf = true → P pf = true) :
    ∀ fs : FS, fs.filter Q = (fs.filter P).filter Q := by
  intro fs
  induction fs with
  | nil => rfl
  | cons hd tl ih =>
    cases hQ : Q hd
    · cases hP : P hd
      · simp [List.filter_cons, hQ, hP, ih]
      · simp [List.filter_cons, hQ, hP, ih]
    · have hP : P hd = true := hq hd hQ
      simp [List.filter_cons, hQ, hP, ih]

theorem filesInDir_key (p : FPath) (dir : FPath) (n : String)
    (h1 : p.dropLast = dir) (h2 : p.getLast? = some n) : p = dir ++ [n] := by
  have hne : p ≠ [] := by
    intro he
    rw [he] at h2
    simp at h2
  have h3 := List.dropLast_append_getLast hne
  rw [List.getLast?_eq_getLast p hne] at h2
  simp only [Option.some.injEq] at h2
  rw [← h3, h1, h2]

theorem filesInDir_stable (java_root bedrock_root dir : FPath)
    (hd1 : ¬ java_root <+: bedrock_root) (hd2 : ¬ bedrock_root <+: java_root)
    (hdir : java_root <+: dir) (fs1 fs2 : FS)
    (hout : outside bedrock_root fs1 = outside bedrock_root fs2) :
    filesInDir fs1 dir = filesInDir fs2 dir := by
  have hg : ∀ pf : FPath × FileE,
      ((match pf.1.getLast? with
        | some n => if pf.1.dropLast = dir then some (n, pf.2) else none
        | none => none : Option (String × FileE))).isSome = true →
      (!(bedrock_root.isPrefixOf pf.1)) = true := by
    intro pf hpf
    cases hL : pf.1.getLast? with
    | none => rw [hL] at hpf; simp at hpf
    | some n =>
      rw [hL] at hpf
      by_cases hdl : pf.1.dropLast = dir
      · have hp := filesInDir_key pf.1 dir n hdl hL
        have : java_root <+: pf.1 := by
          rw [hp]
          exact hdir.trans (List.prefix_append _ _)
        rw [notUnderBedrock java_root bedrock_root pf.1 hd1 hd2 this]
        rfl
      · simp [hdl] at hpf
  unfold filesInDir
  rw [filterM_of_filter _ _ hg fs1, filterM_of_filter _ _ hg fs2]
  have ho : fs1.filter (fun pf => !(bedrock_root.isPrefixOf pf.1)) =
      fs2.filter (fun pf => !(bedrock_root.isPrefixOf pf.1)) := hout
  rw [ho]

theorem machineMatchList_stable (java_root bedrock_root : FPath)
    (hd1 : ¬ java_root <+: bedrock_root) (hd2 : ¬ bedrock_root <+: java_root)
    (fs1 fs2 : FS)
    (hout : outside bedrock_root fs1 = outside bedrock_root fs2) :
    machineMatchList fs1 java_root = machineMatchList fs2 java_root := by
  unfold machineMatchList
  rw [filesInDir_stable java_root bedrock_root (machineDir java_root) hd1 hd2
    (List.prefix_append _ _) fs1 fs2 hout]

theorem pngsUnder_stable (java_root bedrock_root sub : FPath)
    (hd1 : ¬ java_root <+: bedrock_root) (hd2 : ¬ bedrock_root <+: java_root)
    (fs1 fs2 : FS)
    (hout : outside bedrock_root fs1 = outside bedrock_root fs2) :
    pngsUnder fs1 (java_root ++ sub) = pngsUnder fs2 (java_root ++ sub) := by
  unfold pngsUnder
  have hq : ∀ pf : FPath × FileE,
      ((java_root ++ sub).isPrefixOf pf.1 &&
        decide ((java_root ++ sub).length < pf.1.length) &&
        (match pf.1.getLast? with
          | some n => isPngName n
          | none => false)) = true →
      (!(bedrock_root.isPrefixOf pf.1)) = true := by
    intro pf hpf
    simp only [Bool.and_eq_true] at hpf
    have hpre := List.isPrefixOf_iff_prefix.mp hpf.1.1
    have : java_root <+: pf.1 := (List.prefix_append _ _).trans hpre
    rw [notUnderBedrock java_root bedrock_root pf.1 hd1 hd2 this]
    rfl
  rw [filter_of_filter _ _ hq fs1, filter_of_filter _ _ hq fs2]
  have ho : fs1.filter (fun pf => !(bedrock_root.isPrefixOf pf.1)) =
      fs2.filter (fun pf => !(bedrock_root.isPrefixOf pf.1)) := hout
  rw [ho]

theorem filesInDir_paths (fs : FS) (dir : FPath) :
    ∀ nf ∈ filesInDir fs dir, (dir ++ [nf.1], nf.2) ∈ fs := by
  induction fs with
  | nil => intro nf hnf; simp [filesInDir] at hnf
  | cons hd tl ih =>
    obtain ⟨q, g⟩ := hd
    intro nf hnf
    unfold filesInDir at hnf
    rw [List.filterMap_cons] at hnf
    cases hL : (q, g).1.getLast? with
    | none =>
      rw [hL] at hnf
      exact List.mem_cons_of_mem _ (ih nf hnf)
    | some n =>
      rw [hL] at hnf
      by_cases hdl : (q, g).1.dropLast = dir
      · simp only [hdl, if_true] at hnf
        rcases List.mem_cons.mp hnf with heq | hnf2
        · subst heq
          have hp := filesInDir_key q dir n hdl hL
          show (dir ++ [n], g) ∈ (q, g) :: tl
          rw [← hp]
          exact List.mem_cons_self _ _
        · exact List.mem_cons_of_mem _ (ih nf hnf2)
      · simp only [hdl, if_false] at hnf
        exact List.mem_cons_of_mem _ (ih nf hnf)

theorem filesInDir_names_nodup (fs : FS) (dir : FPath)
    (h : (fs.map Prod.fst).Nodup) :
    ((filesInDir fs dir).map Prod.fst).Nodup := by
  induction fs with
  | nil => simp [filesInDir]
  | cons hd tl ih =>
    obtain ⟨q, g⟩ := hd
    simp only [List.map_cons, List.nodup_cons] at h
    unfold filesInDir
    rw [List.filterMap_cons]
    cases hL : (q, g).1.getLast? with
    | none => exact ih h.2
    | some n =>
      by_cases hdl : (q, g).1.dropLast = dir
      · simp only [hdl, if_true]
        rw [List.map_cons, List.nodup_cons]
        refine ⟨?_, ih h.2⟩
        intro hmem
        rcases List.mem_map.mp hmem with ⟨nf, hnf, hfst⟩
        have hpath := filesInDir_paths tl dir nf hnf
        have hp := filesInDir_key q dir n hdl hL
        have hfst2 : nf.1 = n := hfst
        apply h.1
        show q ∈ List.map Prod.fst tl
        rw [hp, ← hfst2]
        exact List.mem_map_of_mem Prod.fst hpath
      · simp only [hdl, if_false]
        exact ih h.2

theorem machineMatchList_names_nodup (fs : FS) (java_root : FPath)
    (h : (fs.map Prod.fst).Nodup) :
    ((machineMatchList fs java_root).map Prod.fst).Nodup := by
  have h1 := filesInDir_names_nodup fs (machineDir java_root) h
  refine h1.sublist ?_
  exact ((List.filter_sublist _).trans (List.filter_sublist _)).map Prod.fst

theorem extract_textures_decomp (java_root bedrock_root : FPath)
    (ap sb : Bool) (fs : FS) :
    extract_textures java_root bedrock_root ap sb fs =
      (if sb then extractCore java_root bedrock_root ap fs
       else
        let r3 := extractCore java_root bedrock_root ap fs
        let r4 := bulk_copy_pngs (java_root ++ ["blocks"])
          (bedrock_root ++ ["blocks"]) r3.1 r3.2
        bulk_copy_pngs (java_root ++ ["items"]) (bedrock_root ++ ["items"])
          r4.1 r4.2) := rfl

theorem build_mappings_dest (java_root bedrock_root : FPath) :
    (∀ m ∈ (build_mappings java_root bedrock_root).1,
      bedrock_root <+: m.destination) ∧
    (∀ m ∈ (build_mappings java_root bedrock_root).2,
      bedrock_root <+: m.destination) := by
  constructor <;>
  · intro m hm
    simp only [build_mappings, List.mem_map] at hm
    obtain ⟨sd, _, rfl⟩ := hm
    exact List.prefix_append _ _

theorem extractCore_post (java_root bedrock_root : FPath) (fs0 : FS)
    (hnd : (fs0.map Prod.fst).Nodup)
    (hd1 : ¬ java_root <+: bedrock_root) (hd2 : ¬ bedrock_root <+: java_root) :
    outside bedrock_root (extractCore java_root bedrock_root true fs0).1 =
        outside bedrock_root fs0 ∧
    (((extractCore java_root bedrock_root true fs0).1).map Prod.fst).Nodup ∧
    (∀ m ∈ (build_mappings java_root bedrock_root).1,
      existsFS (extractCore java_root bedrock_root true fs0).1 m.destination = true) ∧
    (∀ m ∈ (build_mappings java_root bedrock_root).2,
      existsFS (extractCore java_root bedrock_root true fs0).1 m.destination = true) ∧
    (∀ nf ∈ machineMatchList fs0 java_root,
      lookupFS (extractCore java_root bedrock_root true fs0).1
        (bedrock_root ++ ["blocks", "machine", nf.1]) = some nf.2) := by
  obtain ⟨hpre1, hpre2⟩ := build_mappings_dest java_root bedrock_root
  simp only [extractCore, copy_machine_variants]
  set r1 := runMappings (build_mappings java_root bedrock_root).1 true fs0
    Counters.init with hr1
  set L := machineMatchList r1.1 java_root with hLdef
  set r2 := copyMachineList L bedrock_root r1.1 r1.2 with hr2
  set r3 := runMappings (build_mappings java_root bedrock_root).2 true r2.1 r2.2
    with hr3
  have hout1 : outside bedrock_root r1.1 = outside bedrock_root fs0 := by
    rw [hr1]
    exact runMappings_outside _ true bedrock_root hpre1 fs0 Counters.init
  have hnd1 : (r1.1.map Prod.fst).Nodup := by
    rw [hr1]
    exact runMappings_nodup _ true fs0 Counters.init hnd
  have hout2 : outside bedrock_root r2.1 = outside bedrock_root r1.1 := by
    rw [hr2]
    exact copyMachineList_outside L bedrock_root r1.1 r1.2
  have hnd2 : (r2.1.map Prod.fst).Nodup := by
    rw [hr2]
    exact copyMachineList_nodup L bedrock_root r1.1 r1.2 hnd1
  have hout3 : outside bedrock_root r3.1 = outside bedrock_root r2.1 := by
    rw [hr3]
    exact runMappings_outside _ true bedrock_root hpre2 r2.1 r2.2
  have hnd3 : (r3.1.map Prod.fst).Nodup := by
    rw [hr3]
    exact runMappings_nodup _ true r2.1 r2.2 hnd2
  have hLeq : L = machineMatchList fs0 java_root := by
    rw [hLdef]
    exact machineMatchList_stable java_root bedrock_root hd1 hd2 r1.1 fs0 hout1
  have hnames : (L.map Prod.fst).Nodup := by
    rw [hLdef]
    exact machineMatchList_names_nodup r1.1 java_root hnd1
  have hmach2 : ∀ nf ∈ L,
      lookupFS r2.1 (bedrock_root ++ ["blocks", "machine", nf.1]) = some nf.2 := by
    intro nf hnf
    rw [hr2]
    exact copyMachineList_lookup L bedrock_root r1.1 r1.2 hnames nf.1 nf.2
      (by simpa using hnf)
  have hmach3 : ∀ nf ∈ L,
      lookupFS r3.1 (bedrock_root ++ ["blocks", "machine", nf.1]) = some nf.2 := by
    intro nf hnf
    rw [hr3]
    exact runMappings_pres _ true r2.1 r2.2 _ _ (hmach2 nf hnf)
  have htex1 : ∀ m ∈ (build_mappings java_root bedrock_root).1,
      existsFS r1.1 m.destination = true := by
    intro m hm
    rw [hr1]
    exact runMappings_post_dest _ fs0 Counters.init m hm
  have htex3 : ∀ m ∈ (build_mappings java_root bedrock_root).1,
      existsFS r3.1 m.destination = true := by
    intro m hm
    rw [hr3]
    apply runMappings_mono _ true r2.1 r2.2 _
    rw [hr2]
    exact copyMachineList_mono L bedrock_root r1.1 r1.2 _ (htex1 m hm)
  have hitem3 : ∀ m ∈ (build_mappings java_root bedrock_root).2,
      existsFS r3.1 m.destination = true := by
    intro m hm
    rw [hr3]
    exact runMappings_post_dest _ r2.1 r2.2 m hm
  refine ⟨hout3.trans (hout2.trans hout1), hnd3, htex3, hitem3, ?_⟩
  rw [← hLeq]
  exact hmach3

theorem extractCore_noop (java_root bedrock_root : FPath) (fs1 : FS)
    (htex : ∀ m ∈ (build_mappings java_root bedrock_root).1,
      existsFS fs1 m.destination = true)
    (hitem : ∀ m ∈ (build_mappings java_root bedrock_root).2,
      existsFS fs1 m.destination = true)
    (hmach : ∀ nf ∈ machineMatchList fs1 java_root,
      lookupFS fs1 (bedrock_root ++ ["blocks", "machine", nf.1]) = some nf.2) :
    extractCore java_root bedrock_root true fs1 =
      (fs1, ⟨(machineMatchList fs1 java_root).length, 0, 0,
        (build_mappings java_root bedrock_root).1.length +
          (build_mappings java_root bedrock_root).2.length, 0⟩) := by
  have h1 : runMappings (build_mappings java_root bedrock_root).1 true fs1
      Counters.init =
      (fs1, ⟨0, 0, 0, 0 + (build_mappings java_root bedrock_root).1.length, 0⟩) := by
    rw [runMappings_skip _ true fs1 Counters.init htex]
    simp [Counters.init]
  have h2 : copyMachineList (machineMatchList fs1 java_root) bedrock_root fs1
      ⟨0, 0, 0, 0 + (build_mappings java_root bedrock_root).1.length, 0⟩ =
      (fs1, ⟨0 + (machineMatchList fs1 java_root).length, 0, 0,
        0 + (build_mappings java_root bedrock_root).1.length, 0⟩) := by
    rw [copyMachineList_noop _ bedrock_root fs1 _ hmach]
  have h3 : runMappings (build_mappings java_root bedrock_root).2 true fs1
      ⟨0 + (machineMatchList fs1 java_root).length, 0, 0,
        0 + (build_mappings java_root bedrock_root).1.length, 0⟩ =
      (fs1, ⟨0 + (machineMatchList fs1 java_root).length, 0, 0,
        0 + (build_mappings java_root bedrock_root).1.length +
          (build_mappings java_root bedrock_root).2.length, 0⟩) := by
    rw [runMappings_skip _ true fs1 _ hitem]
  simp only [extractCore, copy_machine_variants, h1, h2, h3]
  simp [Counters.mk.injEq, Prod.mk.injEq]

set_option maxRecDepth 4000 in
theorem extract_textures_post (java_root bedrock_root : FPath) (sb : Bool)
    (fs0 : FS) (hnd : (fs0.map Prod.fst).Nodup)
    (hd1 : ¬ java_root <+: bedrock_root) (hd2 : ¬ bedrock_root <+: java_root) :
    outside bedrock_root (extract_textures java_root bedrock_root true sb fs0).1 =
        outside bedrock_root fs0 ∧
    (∀ m ∈ (build_mappings java_root bedrock_root).1,
      existsFS (extract_textures java_root bedrock_root true sb fs0).1
        m.destination = true) ∧
    (∀ m ∈ (build_mappings java_root bedrock_root).2,
      existsFS (extract_textures java_root bedrock_root true sb fs0).1
        m.destination = true) ∧
    (∀ nf ∈ machineMatchList fs0 java_root,
      lookupFS (extract_textures java_root bedrock_root true sb fs0).1
        (bedrock_root ++ ["blocks", "machine", nf.1]) = some nf.2) ∧
    (sb = false →
      (∀ pf ∈ pngsUnder fs0 (java_root ++ ["blocks"]),
        existsFS (extract_textures java_root bedrock_root true sb fs0).1
          (bedrock_root ++ ["blocks"] ++
            pf.1.drop (java_root ++ ["blocks"]).length) = true) ∧
      (∀ pf ∈ pngsUnder fs0 (java_root ++ ["items"]),
        existsFS (extract_textures java_root bedrock_root true sb fs0).1
          (bedrock_root ++ ["items"] ++
            pf.1.drop (java_root ++ ["items"]).length) = true)) := by
  obtain ⟨hco, hcn, hct, hci, hcm⟩ :=
    extractCore_post java_root bedrock_root fs0 hnd hd1 hd2
  cases sb with
  | true =>
    have hext : extract_textures java_root bedrock_root true true fs0 =
        extractCore java_root bedrock_root true fs0 := rfl
    rw [hext]
    exact ⟨hco, hct, hci, hcm, by intro h; exact absurd h (by decide)⟩
  | false =>
    simp only [extract_textures_decomp, Bool.false_eq_true, if_false,
      bulk_copy_pngs]
    set c := extractCore java_root bedrock_root true fs0 with hcdef
    set B1 := pngsUnder c.1 (java_root ++ ["blocks"]) with hB1def
    set r4 := bulkList B1 (java_root ++ ["blocks"]) (bedrock_root ++ ["blocks"])
      c.1 c.2 with hr4def
    set B2 := pngsUnder r4.1 (java_root ++ ["items"]) with hB2def
    set r5 := bulkList B2 (java_root ++ ["items"]) (bedrock_root ++ ["items"])
      r4.1 r4.2 with hr5def
    have hout4 : outside bedrock_root r4.1 = outside bedrock_root c.1 := by
      rw [hr4def]
      exact bulkList_outside B1 _ bedrock_root _ (List.prefix_append _ _) c.1 c.2
    have hout5 : outside bedrock_root r5.1 = outside bedrock_root r4.1 := by
      rw [hr5def]
      exact bulkList_outside B2 _ bedrock_root _ (List.prefix_append _ _) r4.1 r4.2
    have hB1eq : B1 = pngsUnder fs0 (java_root ++ ["blocks"]) := by
      rw [hB1def]
      exact pngsUnder_stable java_root bedrock_root _ hd1 hd2 c.1 fs0 hco
    have hB2eq : B2 = pngsUnder fs0 (java_root ++ ["items"]) := by
      rw [hB2def]
      exact pngsUnder_stable java_root bedrock_root _ hd1 hd2 r4.1 fs0
        (hout4.trans hco)
    refine ⟨(hout5.trans hout4).trans hco, ?_, ?_, ?_, ?_⟩
    · intro m hm
      rw [hr5def]
      apply bulkList_mono
      rw [hr4def]
      apply bulkList_mono
      exact hct m hm
    · intro m hm
      rw [hr5def]
      apply bulkList_mono
      rw [hr4def]
      apply bulkList_mono
      exact hci m hm
    · intro nf hnf
      rw [hr5def]
      apply bulkList_preserves
      rw [hr4def]
      apply bulkList_preserves
      exact hcm nf hnf
    · intro _
      constructor
      · intro pf hpf
        rw [hr5def]
        apply bulkList_mono
        rw [hr4def]
        apply bulkList_post_dest
        rw [hB1eq]
        exact hpf
      · intro pf hpf
        rw [hr5def]
        apply bulkList_post_dest
        rw [hB2eq]
        exact hpf

/-- **C2 amended.**  With placeholders enabled, a well-formed filesystem (no
duplicate paths) and java/bedrock roots neither nested in the other, a second
run of the full extraction yields destination contents identical to the
first run's, and its counters show zero placeholder, zero bulk and zero
missing entries with every mapping entry and every bulk-discovered file
counted as skipped-existing — but the mapped ("copied") counter is not zero
as claimed: it equals the number of machine-variant files, which the sweep
re-copies (byte-identically) on every run. -/
theorem extract_textures_second_run (java_root bedrock_root : FPath)
    (skip_bulk : Bool) (fs0 : FS)
    (hnd : (fs0.map Prod.fst).Nodup)
    (hd1 : ¬ java_root <+: bedrock_root) (hd2 : ¬ bedrock_root <+: java_root) :
    extract_textures java_root bedrock_root true skip_bulk
        (extract_textures java_root bedrock_root true skip_bulk fs0).1 =
      ((extract_textures java_root bedrock_root true skip_bulk fs0).1,
       ⟨(machineMatchList
           (extract_textures java_root bedrock_root true skip_bulk fs0).1
           java_root).length,
        0, 0,
        RAW_TEXTURE_MAPPING.length + RAW_ITEM_MAPPING.length +
          (if skip_bulk then 0 else
            (pngsUnder
              (extract_textures java_root bedrock_root true skip_bulk fs0).1
              (java_root ++ ["blocks"])).length +
            (pngsUnder
              (extract_textures java_root bedrock_root true skip_bulk fs0).1
              (java_root ++ ["items"])).length),
        0⟩) := by
  have hlen1 : (build_mappings java_root bedrock_root).1.length =
      RAW_TEXTURE_MAPPING.length := by
    simp [build_mappings]
  have hlen2 : (build_mappings java_root bedrock_root).2.length =
      RAW_ITEM_MAPPING.length := by
    simp [build_mappings]
  cases skip_bulk with
  | true =>
    obtain ⟨hout, htex, hitem, hmach, _⟩ :=
      extract_textures_post java_root bedrock_root true fs0 hnd hd1 hd2
    set fs1 := (extract_textures java_root bedrock_root true true fs0).1
      with hfs1
    have hmm : machineMatchList fs1 java_root = machineMatchList fs0 java_root :=
      machineMatchList_stable java_root bedrock_root hd1 hd2 fs1 fs0 hout
    have hmach1 : ∀ nf ∈ machineMatchList fs1 java_root,
        lookupFS fs1 (bedrock_root ++ ["blocks", "machine", nf.1]) = some nf.2 := by
      rw [hmm]
      exact hmach
    have hcore2 := extractCore_noop java_root bedrock_root fs1 htex hitem hmach1
    have hrun2 : extract_textures java_root bedrock_root true true fs1 =
        extractCore java_root bedrock_root true fs1 := rfl
    rw [hrun2, hcore2]
    simp [hlen1, hlen2]
  | false =>
    obtain ⟨hout, htex, hitem, hmach, hbulk⟩ :=
      extract_textures_post java_root bedrock_root false fs0 hnd hd1 hd2
    have hb := hbulk rfl
    set fs1 := (extract_textures java_root bedrock_root true false fs0).1
      with hfs1
    have hmm : machineMatchList fs1 java_root = machineMatchList fs0 java_root :=
      machineMatchList_stable java_root bedrock_root hd1 hd2 fs1 fs0 hout
    have hmach1 : ∀ nf ∈ machineMatchList fs1 java_root,
        lookupFS fs1 (bedrock_root ++ ["blocks", "machine", nf.1]) = some nf.2 := by
      rw [hmm]
      exact hmach
    have hcore2 := extractCore_noop java_root bedrock_root fs1 htex hitem hmach1
    have hB1 : pngsUnder fs1 (java_root ++ ["blocks"]) =
        pngsUnder fs0 (java_root ++ ["blocks"]) :=
      pngsUnder_stable java_root bedrock_root _ hd1 hd2 fs1 fs0 hout
    have hB2 : pngsUnder fs1 (java_root ++ ["items"]) =
        pngsUnder fs0 (java_root ++ ["items"]) :=
      pngsUnder_stable java_root bedrock_root _ hd1 hd2 fs1 fs0 hout
    have hskipB : ∀ pf ∈ pngsUnder fs1 (java_root ++ ["blocks"]),
        existsFS fs1 (bedrock_root ++ ["blocks"] ++
          pf.1.drop (java_root ++ ["blocks"]).length) = true := by
      rw [hB1]
      exact hb.1
    have hskipI : ∀ pf ∈ pngsUnder fs1 (java_root ++ ["items"]),
        existsFS fs1 (bedrock_root ++ ["items"] ++
          pf.1.drop (java_root ++ ["items"]).length) = true := by
      rw [hB2]
      exact hb.2
    have h4 : bulkList (pngsUnder fs1 (java_root ++ ["blocks"]))
        (java_root ++ ["blocks"]) (bedrock_root ++ ["blocks"]) fs1
        ⟨(machineMatchList fs1 java_root).length, 0, 0,
          (build_mappings java_root bedrock_root).1.length +
            (build_mappings java_root bedrock_root).2.length, 0⟩ =
        (fs1, ⟨(machineMatchList fs1 java_root).length, 0, 0,
          (build_mappings java_root bedrock_root).1.length +
            (build_mappings java_root bedrock_root).2.length +
            (pngsUnder fs1 (java_root ++ ["blocks"])).length, 0⟩) := by
      rw [bulkList_skip _ _ _ fs1 _ hskipB]
    have h5 : bulkList (pngsUnder fs1 (java_root ++ ["items"]))
        (java_root ++ ["items"]) (bedrock_root ++ ["items"]) fs1
        ⟨(machineMatchList fs1 java_root).length, 0, 0,
          (build_mappings java_root bedrock_root).1.length +
            (build_mappings java_root bedrock_root).2.length +
            (pngsUnder fs1 (java_root ++ ["blocks"])).length, 0⟩ =
        (fs1, ⟨(machineMatchList fs1 java_root).length, 0, 0,
          (build_mappings java_root bedrock_root).1.length +
            (build_mappings java_root bedrock_root).2.length +
            (pngsUnder fs1 (java_root ++ ["blocks"])).length +
            (pngsUnder fs1 (java_root ++ ["items"])).length, 0⟩) := by
      rw [bulkList_skip _ _ _ fs1 _ hskipI]
    simp only [extract_textures_decomp, Bool.false_eq_true, if_false,
      bulk_copy_pngs, hcore2, h4, h5]
    rw [hlen1, hlen2]
    simp only [Prod.mk.injEq, Counters.mk.injEq, true_and, and_true]
    omega

set_option maxRecDepth 10000 in
/-- **C2 counterexample.**  Against a filesystem holding one machine-variant
texture, the second run's counters do not show zero copied entries: the
machine-variant sweep re-copies the file on every run, so the mapped
("copied") counter of the second run is `1`, not `0`. -/
theorem extract_twice_counterexample :
    (extract_textures ["j"] ["b"] true false
        (extract_textures ["j"] ["b"] true false runTwiceFS).1).2.mapped = 1 := by
  decide

set_option maxRecDepth 10000 in
/-- Witness for C2's amended theorem at a concrete filesystem. -/
theorem extract_textures_second_run_witness :
    extract_textures ["j"] ["b"] true false
        (extract_textures ["j"] ["b"] true false runTwiceFS).1 =
      ((extract_textures ["j"] ["b"] true false runTwiceFS).1,
       ⟨(machineMatchList
           (extract_textures ["j"] ["b"] true false runTwiceFS).1 ["j"]).length,
        0, 0,
        RAW_TEXTURE_MAPPING.length + RAW_ITEM_MAPPING.length +
          (if false then 0 else
            (pngsUnder (extract_textures ["j"] ["b"] true false runTwiceFS).1
              (["j"] ++ ["blocks"])).length +
            (pngsUnder (extract_textures ["j"] ["b"] true false runTwiceFS).1
              (["j"] ++ ["items"])).length),
        0⟩) :=
  extract_textures_second_run ["j"] ["b"] false runTwiceFS (by decide) (by decide)
    (by decide)
